import Mathlib

/-!
Verification of the teatime period-reminder and reference-gathering core
(`internal/storage/storage.go`).

Modelling conventions:

* A calendar date is an `Int`: the number of days since 1970-01-01 in the
  proleptic Gregorian calendar (the calendar `time.Date`, `time.AddDate`,
  `Time.ISOWeek` and `Time.Format` compute with; all times in the program
  are midnight-local, and only whole days matter).  `AddDate(0,0,i)` is
  `z + i`.
* Go standard-library calendar functions (`time.Date`, `ISOWeek`,
  `Weekday`, `Format`, `Parse`) are modelled by their documented calendar
  semantics over this day-number representation; the repository's own
  functions are translated statement by statement.
* `fmt.Sscanf` with verbs `%d` and literal text is modelled by `scanInt` /
  `dropLit`: `%d` skips leading blanks, accepts an optional sign and a
  maximal run of ASCII digits, and trailing unmatched input is ignored
  (exactly Sscanf's behaviour, which is looser than the `YYYY-Www`
  format the spec names).
* The Note Store collaborator is a record of its three operations; a value
  of `NoteStore` is one project's view of the store.  `ReadNote` returns
  `""` for a missing file and its error path is not exercised by the
  claims, so it is modelled total; `ListNotes` can fail, so it is an
  `Except`.
-/

namespace Teatime

/-! ## Decimal digits and integer formatting (models strconv/fmt output) -/

/-- ASCII digit test, as Go's `%d` verb accepts digits. -/
def isDigitCh (c : Char) : Bool := 48 ≤ c.toNat && c.toNat ≤ 57

/-- Fuelled digit extraction (structural recursion so that the kernel can
evaluate it; the fuel is always sufficient at the call site below). -/
def natDigitsRevFuel : Nat → Nat → List Char
  | 0, _ => []
  | fuel + 1, n =>
    if n < 10 then [Nat.digitChar n]
    else Nat.digitChar (n % 10) :: natDigitsRevFuel fuel (n / 10)

/-- Decimal digits of a natural number, least significant first. -/
def natDigitsRev (n : Nat) : List Char := natDigitsRevFuel (n + 1) n

theorem natDigitsRevFuel_congr : ∀ (f1 f2 n : Nat), n < f1 → n < f2 →
    natDigitsRevFuel f1 n = natDigitsRevFuel f2 n := by
  intro f1
  induction f1 with
  | zero => intro f2 n h _; omega
  | succ f ih =>
    intro f2 n h1 h2
    cases f2 with
    | zero => omega
    | succ g =>
      show (if n < 10 then [Nat.digitChar n]
          else Nat.digitChar (n % 10) :: natDigitsRevFuel f (n / 10)) =
        (if n < 10 then [Nat.digitChar n]
          else Nat.digitChar (n % 10) :: natDigitsRevFuel g (n / 10))
      by_cases hn : n < 10
      · rw [if_pos hn, if_pos hn]
      · rw [if_neg hn, if_neg hn]
        have hd : n / 10 < n := Nat.div_lt_self (by omega) (by omega)
        rw [ih g (n / 10) (by omega) (by omega)]

theorem natDigitsRev_unfold (n : Nat) :
    natDigitsRev n = if n < 10 then [Nat.digitChar n]
      else Nat.digitChar (n % 10) :: natDigitsRev (n / 10) := by
  show (if n < 10 then [Nat.digitChar n]
      else Nat.digitChar (n % 10) :: natDigitsRevFuel n (n / 10)) = _
  by_cases hn : n < 10
  · rw [if_pos hn, if_pos hn]
  · rw [if_neg hn, if_neg hn]
    have hd : n / 10 < n := Nat.div_lt_self (by omega) (by omega)
    rw [natDigitsRevFuel_congr n (n / 10 + 1) (n / 10) (by omega) (by omega)]
    rfl

/-- Decimal digits of a natural number, most significant first. -/
def natDigits (n : Nat) : List Char := (natDigitsRev n).reverse

/-- Decimal string of a natural number. -/
def natStr (n : Nat) : String := ⟨natDigits n⟩

/-- Decimal string of an integer, as Go's `%d` prints it. -/
def intStr (i : Int) : String :=
  if i < 0 then "-" ++ natStr (-i).toNat else natStr i.toNat

/-- Two-digit zero padding, as Go's `%02d` (and `Format`'s `01`/`02`
fields) print a non-negative number.  All call sites in the program pass
values in `0..99`. -/
def pad2 (n : Int) : String :=
  if 0 ≤ n && n < 10 then "0" ++ intStr n else intStr n

/-- Four-digit zero padding, as `Format`'s `2006` field prints a year in
`0..9999` (the only years producible by the program's strict date
parsing). -/
def pad4 (n : Int) : String :=
  if 0 ≤ n && n < 10 then "000" ++ intStr n
  else if 0 ≤ n && n < 100 then "00" ++ intStr n
  else if 0 ≤ n && n < 1000 then "0" ++ intStr n
  else intStr n

/-! ## Scanning (models `fmt.Sscanf` with `%d` verbs and literal text) -/

/-- Value of an ASCII digit character. -/
def digitVal (c : Char) : Nat := c.toNat - 48

/-- Scan a maximal run of ASCII digits, accumulating their value. -/
def scanDigits : List Char → Nat → Nat × List Char
  | [], acc => (acc, [])
  | c :: cs, acc =>
    if isDigitCh c then scanDigits cs (10 * acc + digitVal c) else (acc, c :: cs)

/-- Does the character list start with an ASCII digit? -/
def headDigit : List Char → Bool
  | [] => false
  | c :: _ => isDigitCh c

/-- Model of one `%d` verb of `fmt.Sscanf`: skip blanks, optional sign,
then at least one digit (maximal munch); returns the value and the rest. -/
def scanInt (cs : List Char) : Option (Int × List Char) :=
  match cs.dropWhile (fun c => c == ' ' || c == '\t') with
  | [] => none
  | c :: rest =>
    if c = '-' then
      if headDigit rest then
        let p := scanDigits rest 0
        some (-(p.1 : Int), p.2)
      else none
    else if c = '+' then
      if headDigit rest then
        let p := scanDigits rest 0
        some ((p.1 : Int), p.2)
      else none
    else if isDigitCh c then
      let p := scanDigits (c :: rest) 0
      some ((p.1 : Int), p.2)
    else none

/-- Model of literal (non-blank) text in an `fmt.Sscanf` format: it must
match the input exactly. -/
def dropLit : List Char → List Char → Option (List Char)
  | [], cs => some cs
  | _ :: _, [] => none
  | l :: ls, c :: cs => if c = l then dropLit ls cs else none

/-- Model of `fmt.Sscanf(s, "%d" ++ lit ++ "%d", &a, &b)`: both verbs must
scan; input after the second number is ignored (Sscanf does not require
the whole input to be consumed). -/
def sscanfIntLitInt (lit : String) (s : String) : Option (Int × Int) :=
  match scanInt s.data with
  | none => none
  | some (a, r1) =>
    match dropLit lit.data r1 with
    | none => none
    | some r2 =>
      match scanInt r2 with
      | none => none
      | some (b, _) => some (a, b)

/-- Model of `fmt.Sscanf(s, "%d", &a)`. -/
def sscanfInt (s : String) : Option Int :=
  match scanInt s.data with
  | none => none
  | some (a, _) => some a

/-! ## Calendar core (proleptic Gregorian, day numbers since 1970-01-01) -/

/-- Day number of January 1 of year `y` (standard closed form for the
number of days before a Gregorian year, shifted to the 1970 epoch). -/
def jan1 (y : Int) : Int :=
  365 * (y - 1) + (y - 1) / 4 - (y - 1) / 100 + (y - 1) / 400 - 719162

/-- First guess for the year containing a day number. -/
def yearOfGuess (z : Int) : Int := (400 * (z + 719468)) / 146097

/-- Year containing day number `z` (guess plus correction). -/
def yearOf (z : Int) : Int :=
  if z < jan1 (yearOfGuess z) then yearOfGuess z - 1
  else if z < jan1 (yearOfGuess z + 1) then yearOfGuess z
  else yearOfGuess z + 1

/-- Gregorian leap-year rule. -/
def isLeap (y : Int) : Bool := y % 4 = 0 && (y % 100 != 0 || y % 400 = 0)

/-- Days in a given month of a given year (what
`time.Date(y, m+1, 0).Day()` computes in `gatherWeeklyForMonth`). -/
def daysInMonth (y m : Int) : Int :=
  if m = 2 then (if isLeap y then 29 else 28)
  else if m = 4 ∨ m = 6 ∨ m = 9 ∨ m = 11 then 30
  else 31

/-- Days of year `y` strictly before month `m` (for `m` in `1..12`). -/
def daysBeforeMonth (leap : Bool) (m : Int) : Int :=
  (if m ≤ 1 then 0
   else if m ≤ 2 then 31
   else if m ≤ 3 then 59
   else if m ≤ 4 then 90
   else if m ≤ 5 then 120
   else if m ≤ 6 then 151
   else if m ≤ 7 then 181
   else if m ≤ 8 then 212
   else if m ≤ 9 then 243
   else if m ≤ 10 then 273
   else if m ≤ 11 then 304
   else 334) +
  (if leap ∧ 3 ≤ m then 1 else 0)

/-- Day number of the calendar date `y-m-d` (what `time.Date` computes for
a month in `1..12`, the only way the program calls it). -/
def dayNumber (y m d : Int) : Int :=
  jan1 y + daysBeforeMonth (isLeap y) m + (d - 1)

/-- Month (1..12) containing day `yd` (0-based) of a year. -/
def monthOfYday (leap : Bool) (yd : Int) : Int :=
  if yd < daysBeforeMonth leap 2 then 1
  else if yd < daysBeforeMonth leap 3 then 2
  else if yd < daysBeforeMonth leap 4 then 3
  else if yd < daysBeforeMonth leap 5 then 4
  else if yd < daysBeforeMonth leap 6 then 5
  else if yd < daysBeforeMonth leap 7 then 6
  else if yd < daysBeforeMonth leap 8 then 7
  else if yd < daysBeforeMonth leap 9 then 8
  else if yd < daysBeforeMonth leap 10 then 9
  else if yd < daysBeforeMonth leap 11 then 10
  else if yd < daysBeforeMonth leap 12 then 11
  else 12

/-- Month (1..12) of the date with day number `z`. -/
def monthOf (z : Int) : Int := monthOfYday (isLeap (yearOf z)) (z - jan1 (yearOf z))

/-- Day of month of the date with day number `z`. -/
def dayOfMonthOf (z : Int) : Int :=
  (z - jan1 (yearOf z)) - daysBeforeMonth (isLeap (yearOf z)) (monthOf z) + 1

/-- Weekday of day number `z`: 0 = Sunday .. 6 = Saturday (Go's
`time.Weekday` numbering; day 0, 1970-01-01, was a Thursday). -/
def weekdayZ (z : Int) : Int := (z + 4) % 7

/-- ISO weekday: Monday = 1 .. Sunday = 7 (Go code maps Sunday to 7). -/
def isoWeekdayZ (z : Int) : Int := if weekdayZ z = 0 then 7 else weekdayZ z

/-- Thursday of the ISO week containing `z` (the day that fixes the ISO
year, per the rule Go's `Time.ISOWeek` implements). -/
def thursdayOf (z : Int) : Int := z + 4 - isoWeekdayZ z

/-- Monday of the ISO week containing `z`. -/
def mondayOfZ (z : Int) : Int := thursdayOf z - 3

/-- Model of `Time.ISOWeek`: the ISO year and week number of day `z`
(year and 0-based year-day of the week's Thursday; week = yday/7 + 1). -/
def isoWeekOf (z : Int) : Int × Int :=
  ((yearOf (thursdayOf z)),
   (thursdayOf z - jan1 (yearOf (thursdayOf z))) / 7 + 1)

/-! ## Period name formatting (models the `fmt.Sprintf`/`Format` calls) -/

/-- ISO week name `fmt.Sprintf("%d-W%02d", wy, wn)`. -/
def weekName (wy wn : Int) : String := intStr wy ++ "-W" ++ pad2 wn

/-- ISO week key of a date, as `CheckMissingSummaries` builds it. -/
def weekKeyOf (z : Int) : String := weekName (isoWeekOf z).1 (isoWeekOf z).2

/-- Month key of a date, `Format("2006-01")`. -/
def monthKeyOf (z : Int) : String := pad4 (yearOf z) ++ "-" ++ pad2 (monthOf z)

/-- Quarter key of a date, `quarterName`: `fmt.Sprintf("%d-Q%d", year, (month-1)/3+1)`. -/
def quarterKeyOf (z : Int) : String :=
  intStr (yearOf z) ++ "-Q" ++ intStr ((monthOf z - 1) / 3 + 1)

/-- Year key of a date, `Format("2006")`. -/
def yearKeyOf (z : Int) : String := pad4 (yearOf z)

/-- Daily note name of a date, `Format("2006-01-02")`. -/
def dateName (z : Int) : String :=
  pad4 (yearOf z) ++ "-" ++ pad2 (monthOf z) ++ "-" ++ pad2 (dayOfMonthOf z)

/-- Weekday word, `Weekday.String()`. -/
def weekdayWord (z : Int) : String :=
  if weekdayZ z = 0 then "Sunday"
  else if weekdayZ z = 1 then "Monday"
  else if weekdayZ z = 2 then "Tuesday"
  else if weekdayZ z = 3 then "Wednesday"
  else if weekdayZ z = 4 then "Thursday"
  else if weekdayZ z = 5 then "Friday"
  else "Saturday"

/-- Month word, `Month.String()` for `1..12` (out of range gives Go's
`%!Month(n)` shape; the program only reaches it for malformed quarters). -/
def monthWord (m : Int) : String :=
  if m = 1 then "January" else if m = 2 then "February"
  else if m = 3 then "March" else if m = 4 then "April"
  else if m = 5 then "May" else if m = 6 then "June"
  else if m = 7 then "July" else if m = 8 then "August"
  else if m = 9 then "September" else if m = 10 then "October"
  else if m = 11 then "November" else if m = 12 then "December"
  else "%!Month(" ++ intStr m ++ ")"

/-! ## Period name parsing (models the strict `time.Parse` layouts) -/

/-- Model of `time.Parse("2006-01-02", s)`: exactly `YYYY-MM-DD`, all
digits, month in `1..12`, day in range for the month; yields the day
number. -/
def parseDate (s : String) : Option Int :=
  match s.data with
  | [y1, y2, y3, y4, h1, m1, m2, h2, d1, d2] =>
    if isDigitCh y1 && isDigitCh y2 && isDigitCh y3 && isDigitCh y4 &&
       h1 = '-' && isDigitCh m1 && isDigitCh m2 &&
       h2 = '-' && isDigitCh d1 && isDigitCh d2 then
      let y : Int := 1000 * digitVal y1 + 100 * digitVal y2 + 10 * digitVal y3 + digitVal y4
      let m : Int := 10 * digitVal m1 + digitVal m2
      let d : Int := 10 * digitVal d1 + digitVal d2
      if 1 ≤ m ∧ m ≤ 12 ∧ 1 ≤ d ∧ d ≤ daysInMonth y m then
        some (dayNumber y m d)
      else none
    else none
  | _ => none

/-- Model of `time.Parse("2006-01", s)`: exactly `YYYY-MM`, month in
`1..12`; yields year and month. -/
def parseMonthName (s : String) : Option (Int × Int) :=
  match s.data with
  | [y1, y2, y3, y4, h1, m1, m2] =>
    if isDigitCh y1 && isDigitCh y2 && isDigitCh y3 && isDigitCh y4 &&
       h1 = '-' && isDigitCh m1 && isDigitCh m2 then
      let y : Int := 1000 * digitVal y1 + 100 * digitVal y2 + 10 * digitVal y3 + digitVal y4
      let m : Int := 10 * digitVal m1 + digitVal m2
      if 1 ≤ m ∧ m ≤ 12 then some (y, m) else none
    else none
  | _ => none

/-- Strict `YYYY-Www` shape (the format named by the spec): exactly four
digits, `-W`, two digits. -/
def parseWeekNameStrict (s : String) : Option (Int × Int) :=
  match s.data with
  | [y1, y2, y3, y4, h1, hw, w1, w2] =>
    if isDigitCh y1 && isDigitCh y2 && isDigitCh y3 && isDigitCh y4 &&
       h1 = '-' && hw = 'W' && isDigitCh w1 && isDigitCh w2 then
      some (1000 * digitVal y1 + 100 * digitVal y2 + 10 * digitVal y3 + digitVal y4,
            10 * digitVal w1 + digitVal w2)
    else none
  | _ => none

/-- Translation of `mondayOfISOWeek` (storage.go): scan `"%d-W%d"`, take
January 4 of the year, step back to that week's Monday (Sunday counted
as 7), then advance `(week-1)*7` days.  `none` models the returned
`ParseError`. -/
def mondayOfISOWeek (name : String) : Option Int :=
  match sscanfIntLitInt "-W" name with
  | none => none
  | some (year, week) =>
    let jan4 := jan1 year + 3
    let weekday := isoWeekdayZ jan4
    let mondayWeek1 := jan4 - (weekday - 1)
    some (mondayWeek1 + (week - 1) * 7)

/-! ## Note store, categories, reminders -/

/-- Note categories (the five `Category` constants of storage.go). -/
inductive Category where
  | daily
  | weekly
  | monthly
  | quarterly
  | yearly
deriving DecidableEq, Repr

/-- One project's view of the Note Store collaborator.  `listDaily` is
`ListNotes(project, CategoryDaily)` returning the note names (it can
fail); `readNote` is `ReadNote` (empty string for a missing note);
`noteExists` is `NoteExists` (never fails). -/
structure NoteStore where
  listDaily : Except String (List String)
  readNote : Category → String → String
  noteExists : Category → String → Bool

/-- Translation of the `Reminder` struct. -/
structure Reminder where
  category : Category
  name : String
  label : String
deriving DecidableEq, Repr

/-- Translation of `categoryOrder` (storage.go): the fixed sort key;
`default` (which covers `CategoryDaily`) gives 4. -/
def categoryOrder (c : Category) : Nat :=
  match c with
  | .weekly => 0
  | .monthly => 1
  | .quarterly => 2
  | .yearly => 3
  | .daily => 4

/-- Byte-wise strict comparison of character lists; on strings this is
Go's `<` (UTF-8 byte order equals code-point order). -/
def charListLt : List Char → List Char → Bool
  | [], [] => false
  | [], _ :: _ => true
  | _ :: _, [] => false
  | a :: as, b :: bs =>
    if a.toNat < b.toNat then true
    else if b.toNat < a.toNat then false
    else charListLt as bs

/-- Go's `<` on strings. -/
def strLt (a b : String) : Bool := charListLt a.data b.data

/-- Translation of the `sort.Slice` comparator in `CheckMissingSummaries`:
category order first, then name descending (`Name >`). -/
def reminderLess (a b : Reminder) : Bool :=
  if categoryOrder a.category ≠ categoryOrder b.category then
    decide (categoryOrder a.category < categoryOrder b.category)
  else strLt b.name a.name

/-- Non-strict order underlying the reminder sort: `a` may precede `b`
exactly when the Go comparator does not demand `b` before `a`. -/
def reminderLe (a b : Reminder) : Bool := ! reminderLess b a

/-- Propositional form of `reminderLe`. -/
def reminderLeP (a b : Reminder) : Prop := reminderLe a b = true

instance reminderLePDec : DecidableRel reminderLeP := fun a b => by
  unfold reminderLeP
  infer_instance

/-- The sort performed by `sort.Slice(reminders, less)`: `sort.Slice`
guarantees a permutation of the input with no inversions under `less`,
i.e. pairwise `reminderLe` in order.  Insertion sort realises exactly
that contract; the comparator is a strict total order on the
(category, name) keys, which never repeat here, so the result is the
unique such list — see the idempotence theorem. -/
def sortReminders (l : List Reminder) : List Reminder :=
  List.insertionSort reminderLeP l

/-! ## Reference gathering (storage.go `gather*`) -/

/-- Translation of `strings.Join`. -/
def joinSep (sep : String) : List String → String
  | [] => ""
  | [x] => x
  | x :: y :: xs => x ++ sep ++ joinSep sep (y :: xs)

/-- The daily block `gatherDailyForWeek` appends for a non-empty day. -/
def dailyBlock (store : NoteStore) (day : Int) : Option String :=
  let dayName := dateName day
  let content := store.readNote .daily dayName
  if content = "" then none
  else some ("── " ++ dayName ++ " (" ++ weekdayWord day ++ ") ──" ++ "\n" ++ content)

/-- Translation of `gatherDailyForWeek`: parse the week, walk the 7 days
from its Monday, keep a headered block per non-empty daily note, join
with blank lines, or the placeholder when all are empty. -/
def gatherDailyForWeek (store : NoteStore) (name : String) : Option String :=
  match mondayOfISOWeek name with
  | none => none
  | some monday =>
    let parts := (List.range 7).filterMap (fun i : Nat => dailyBlock store (monday + (i : Int)))
    if parts = [] then some "(no daily entries for this week)"
    else some (joinSep "\n\n" parts)

/-- Insert a key if it is not already present (what `seen[wk]`-guarded
append, and map insertion, do). -/
def insertNew (acc : List String) (k : String) : List String :=
  if k ∈ acc then acc else acc ++ [k]

/-- The week enumeration of `gatherWeeklyForMonth`: walk every day of the
month in order and collect each day's ISO week key on first
occurrence. -/
def weeksOverlappingMonth (y m : Int) : List String :=
  (List.range (daysInMonth y m).toNat).foldl
    (fun acc (dIdx : Nat) => insertNew acc (weekKeyOf (dayNumber y m ((dIdx : Int) + 1)))) []

/-- The weekly block `gatherWeeklyForMonth` appends for every overlapping
week (content or `"(no summary)"`). -/
def weeklyBlock (store : NoteStore) (wk : String) : String :=
  let content := store.readNote .weekly wk
  "── " ++ wk ++ " ──" ++ "\n" ++ (if content = "" then "(no summary)" else content)

/-- Translation of `gatherWeeklyForMonth`. -/
def gatherWeeklyForMonth (store : NoteStore) (name : String) : Option String :=
  match parseMonthName name with
  | none => none
  | some (y, m) =>
    let parts := (weeksOverlappingMonth y m).map (weeklyBlock store)
    if parts = [] then some "(no weekly summaries for this month)"
    else some (joinSep "\n\n" parts)

/-- The monthly block `gatherMonthlyForQuarter` appends (month name is
`fmt.Sprintf("%d-%02d", year, m)`, header carries the month word). -/
def monthlyBlock (store : NoteStore) (year m : Int) : String :=
  let monthName := intStr year ++ "-" ++ pad2 m
  let content := store.readNote .monthly monthName
  "── " ++ monthName ++ " (" ++ monthWord m ++ ") ──" ++ "\n" ++
    (if content = "" then "(no summary)" else content)

/-- Translation of `gatherMonthlyForQuarter`: scan `"%d-Q%d"`, emit the 3
months from `(q-1)*3 + 1`, always all of them. -/
def gatherMonthlyForQuarter (store : NoteStore) (name : String) : Option String :=
  match sscanfIntLitInt "-Q" name with
  | none => none
  | some (year, q) =>
    let startMonth := (q - 1) * 3 + 1
    some (joinSep "\n\n"
      ((List.range 3).map (fun i : Nat => monthlyBlock store year (startMonth + (i : Int)))))

/-- The quarterly block `gatherQuarterlyForYear` appends. -/
def quarterlyBlock (store : NoteStore) (year q : Int) : String :=
  let qName := intStr year ++ "-Q" ++ intStr q
  let content := store.readNote .quarterly qName
  "── " ++ qName ++ " ──" ++ "\n" ++ (if content = "" then "(no summary)" else content)

/-- Translation of `gatherQuarterlyForYear`: scan `"%d"`, emit the 4
quarters, always all of them. -/
def gatherQuarterlyForYear (store : NoteStore) (name : String) : Option String :=
  match sscanfInt name with
  | none => none
  | some year =>
    some (joinSep "\n\n"
      ((List.range 4).map (fun i : Nat => quarterlyBlock store year ((i : Int) + 1))))

/-- Translation of `GatherReferenceContent` (the `default` branch returns
the empty string). -/
def gatherReferenceContent (store : NoteStore) (cat : Category) (name : String) :
    Option String :=
  match cat with
  | .weekly => gatherDailyForWeek store name
  | .monthly => gatherWeeklyForMonth store name
  | .quarterly => gatherMonthlyForQuarter store name
  | .yearly => gatherQuarterlyForYear store name
  | .daily => some ""

/-! ## Reminder scan (storage.go `CheckMissingSummaries`) -/

/-- Enclosing-period key of a date for each summary category (for
`daily` it is the date's own name; the scan never uses that case). -/
def summaryKeyOf : Category → Int → String
  | .weekly => weekKeyOf
  | .monthly => monthKeyOf
  | .quarterly => quarterKeyOf
  | .yearly => yearKeyOf
  | .daily => dateName

/-- Label word per category used by the scan's reminder construction. -/
def categoryWord : Category → String
  | .daily => "Daily"
  | .weekly => "Weekly"
  | .monthly => "Monthly"
  | .quarterly => "Quarterly"
  | .yearly => "Yearly"

/-- Accumulation of one category's period set: for each parsed date, its
period key is recorded unless it equals the current period's key.  The
Go map holds exactly these keys; this list fixes first-occurrence order,
and the idempotence theorem shows the scan's output does not depend on
that choice. -/
def accumKeys (keyOf : Int → String) (cur : String) (dates : List Int) : List String :=
  dates.foldl (fun acc d => if keyOf d = cur then acc else insertNew acc (keyOf d)) []

/-- The reminder-emission loop for one category: one reminder per
accumulated period with no existing summary note. -/
def remindersForCategory (store : NoteStore) (cat : Category) (names : List String) :
    List Reminder :=
  names.filterMap (fun n =>
    if store.noteExists cat n then none
    else some ⟨cat, n, categoryWord cat ++ " summary for " ++ n⟩)

/-- The unsorted reminder list built from the four period sets. -/
def buildReminders (store : NoteStore) (ws ms qs ys : List String) : List Reminder :=
  remindersForCategory store .weekly ws ++
  remindersForCategory store .monthly ms ++
  remindersForCategory store .quarterly qs ++
  remindersForCategory store .yearly ys

/-- Body of `CheckMissingSummaries` after the daily listing succeeded:
empty listing or zero parseable dates return no reminders; otherwise the
four period sets are accumulated, turned into reminders and sorted. -/
def scanCore (store : NoteStore) (now : Int) (notes : List String) :
    Except String (List Reminder) :=
  if notes = [] then .ok []
  else if notes.filterMap parseDate = [] then .ok []
  else
    .ok (sortReminders (buildReminders store
      (accumKeys weekKeyOf (weekKeyOf now) (notes.filterMap parseDate))
      (accumKeys monthKeyOf (monthKeyOf now) (notes.filterMap parseDate))
      (accumKeys quarterKeyOf (quarterKeyOf now) (notes.filterMap parseDate))
      (accumKeys yearKeyOf (yearKeyOf now) (notes.filterMap parseDate))))

/-- Translation of `CheckMissingSummaries`.  `now` is the day number
captured once at the start of the scan; a listing failure is returned to
the caller unchanged. -/
def checkMissingSummaries (store : NoteStore) (now : Int) :
    Except String (List Reminder) :=
  match store.listDaily with
  | .error e => .error e
  | .ok notes => scanCore store now notes

/-! ## Lemmas: decimal formatting and scanning round-trip -/

theorem digitChar_toNat (d : Nat) (h : d < 10) : (Nat.digitChar d).toNat = 48 + d := by
  interval_cases d <;> rfl

theorem digitChar_isDigit (d : Nat) (h : d < 10) : isDigitCh (Nat.digitChar d) = true := by
  interval_cases d <;> rfl

theorem digitVal_digitChar (d : Nat) (h : d < 10) : digitVal (Nat.digitChar d) = d := by
  unfold digitVal
  rw [digitChar_toNat d h]
  omega

theorem natDigitsRev_all_digits (n : Nat) : ∀ c ∈ natDigitsRev n, isDigitCh c = true := by
  induction n using Nat.strong_induction_on with
  | _ n ih =>
    rw [natDigitsRev_unfold]
    by_cases h : n < 10
    · rw [if_pos h]
      intro c hc
      simp only [List.mem_singleton] at hc
      subst hc
      exact digitChar_isDigit n h
    · rw [if_neg h]
      intro c hc
      rcases List.mem_cons.mp hc with h1 | h2
      · subst h1
        exact digitChar_isDigit _ (Nat.mod_lt _ (by omega))
      · exact ih (n / 10) (Nat.div_lt_self (by omega) (by omega)) c h2

theorem natDigits_all_digits (n : Nat) : ∀ c ∈ natDigits n, isDigitCh c = true := by
  intro c hc
  exact natDigitsRev_all_digits n c (List.mem_reverse.mp hc)

theorem natDigits_ne_nil (n : Nat) : natDigits n ≠ [] := by
  unfold natDigits
  intro h
  have h2 : natDigitsRev n = [] := by
    cases hrev : natDigitsRev n with
    | nil => rfl
    | cons a l => rw [hrev] at h; simp at h
  rw [natDigitsRev_unfold] at h2
  split at h2 <;> simp at h2

theorem scanDigits_stop (cs : List Char) (h : headDigit cs = false) (acc : Nat) :
    scanDigits cs acc = (acc, cs) := by
  cases cs with
  | nil => rfl
  | cons c rest =>
    have h2 : isDigitCh c = false := h
    show (if isDigitCh c = true then scanDigits rest (10 * acc + digitVal c)
      else (acc, c :: rest)) = (acc, c :: rest)
    rw [if_neg (by simp [h2])]

theorem scanDigits_cons_digit (c : Char) (h : isDigitCh c = true) (cs : List Char) (acc : Nat) :
    scanDigits (c :: cs) acc = scanDigits cs (10 * acc + digitVal c) := by
  show (if isDigitCh c = true then scanDigits cs (10 * acc + digitVal c)
    else (acc, c :: cs)) = _
  rw [if_pos h]

theorem scanDigits_append (n : Nat) : ∀ (acc : Nat) (rest : List Char),
    scanDigits (natDigits n ++ rest) acc =
      scanDigits rest (acc * 10 ^ (natDigits n).length + n) := by
  induction n using Nat.strong_induction_on with
  | _ n ih =>
    intro acc rest
    by_cases h : n < 10
    · have hd : natDigits n = [Nat.digitChar n] := by
        unfold natDigits
        rw [natDigitsRev_unfold, if_pos h]
        rfl
      rw [hd, List.cons_append, List.nil_append,
        scanDigits_cons_digit _ (digitChar_isDigit n h), digitVal_digitChar n h]
      congr 1
      simp only [List.length_cons, List.length_nil, pow_one]
      ring
    · have hm : n % 10 < 10 := Nat.mod_lt _ (by omega)
      have hlt : n / 10 < n := Nat.div_lt_self (by omega) (by omega)
      have hd : natDigits n = natDigits (n / 10) ++ [Nat.digitChar (n % 10)] := by
        unfold natDigits
        rw [natDigitsRev_unfold, if_neg h]
        simp
      rw [hd, List.append_assoc, ih (n / 10) hlt, List.cons_append, List.nil_append,
        scanDigits_cons_digit _ (digitChar_isDigit _ hm), digitVal_digitChar _ hm]
      congr 1
      simp only [List.length_append, List.length_cons, List.length_nil, pow_succ]
      have h10 : 10 * (n / 10) + n % 10 = n := Nat.div_add_mod n 10
      calc 10 * (acc * 10 ^ (natDigits (n / 10)).length + n / 10) + n % 10
          = acc * (10 ^ (natDigits (n / 10)).length * 10) + (10 * (n / 10) + n % 10) := by
            ring
        _ = acc * (10 ^ (natDigits (n / 10)).length * 10) + n := by rw [h10]

theorem headDigit_natDigits (n : Nat) (rest : List Char) :
    headDigit (natDigits n ++ rest) = true := by
  cases hd : natDigits n with
  | nil => exact absurd hd (natDigits_ne_nil n)
  | cons c l =>
    unfold headDigit
    simp only [List.cons_append]
    exact natDigits_all_digits n c (by rw [hd]; exact List.mem_cons_self c l)

theorem digit_not_blank (c : Char) (h : isDigitCh c = true) :
    (c == ' ' || c == '\t') = false := by
  unfold isDigitCh at h
  simp only [Bool.or_eq_false_iff, beq_eq_false_iff_ne]
  constructor
  · intro he
    subst he
    simp at h
  · intro he
    subst he
    simp at h

theorem dropWhile_blank_natDigits (n : Nat) (rest : List Char) :
    (natDigits n ++ rest).dropWhile (fun c => c == ' ' || c == '\t') =
      natDigits n ++ rest := by
  cases hd : natDigits n with
  | nil => exact absurd hd (natDigits_ne_nil n)
  | cons c l =>
    simp only [List.cons_append, List.dropWhile_cons]
    rw [digit_not_blank c (natDigits_all_digits n c (by rw [hd]; exact List.mem_cons_self c l))]
    simp

theorem digit_ne_dash (c : Char) (h : isDigitCh c = true) : c ≠ '-' := by
  intro he
  subst he
  simp [isDigitCh] at h

theorem digit_ne_plus (c : Char) (h : isDigitCh c = true) : c ≠ '+' := by
  intro he
  subst he
  simp [isDigitCh] at h

theorem dropWhile_blank_cons (c : Char) (cs : List Char) (h : (c == ' ' || c == '\t') = false) :
    (c :: cs).dropWhile (fun x => x == ' ' || x == '\t') = c :: cs := by
  simp [List.dropWhile_cons, h]

theorem scanInt_cons (c : Char) (cs : List Char) (h : (c == ' ' || c == '\t') = false) :
    scanInt (c :: cs) =
      (if c = '-' then
        if headDigit cs then some (-((scanDigits cs 0).1 : Int), (scanDigits cs 0).2)
        else none
      else if c = '+' then
        if headDigit cs then some (((scanDigits cs 0).1 : Int), (scanDigits cs 0).2)
        else none
      else if isDigitCh c then
        some (((scanDigits (c :: cs) 0).1 : Int), (scanDigits (c :: cs) 0).2)
      else none) := by
  unfold scanInt
  rw [dropWhile_blank_cons c cs h]

theorem scanInt_natDigits (n : Nat) (rest : List Char) (h : headDigit rest = false) :
    scanInt (natDigits n ++ rest) = some ((n : Int), rest) := by
  cases hd : natDigits n with
  | nil => exact absurd hd (natDigits_ne_nil n)
  | cons c l =>
    have hdig : isDigitCh c = true :=
      natDigits_all_digits n c (by rw [hd]; exact List.mem_cons_self c l)
    rw [List.cons_append, scanInt_cons c (l ++ rest) (digit_not_blank c hdig),
      if_neg (digit_ne_dash c hdig), if_neg (digit_ne_plus c hdig), if_pos hdig]
    have hback : c :: (l ++ rest) = natDigits n ++ rest := by rw [hd]; simp
    rw [hback, scanDigits_append n 0 rest, scanDigits_stop rest h]
    simp

theorem intStr_data_nonneg (i : Int) (h : 0 ≤ i) : (intStr i).data = natDigits i.toNat := by
  unfold intStr
  rw [if_neg (by omega)]
  rfl

theorem intStr_data_neg (i : Int) (h : i < 0) :
    (intStr i).data = '-' :: natDigits (-i).toNat := by
  unfold intStr
  rw [if_pos h]
  rfl

theorem scanInt_intStr (i : Int) (rest : List Char) (h : headDigit rest = false) :
    scanInt ((intStr i).data ++ rest) = some (i, rest) := by
  rcases le_or_lt 0 i with hp | hn
  · rw [intStr_data_nonneg i hp, scanInt_natDigits i.toNat rest h]
    congr 2
    omega
  · rw [intStr_data_neg i hn, List.cons_append,
      scanInt_cons _ _ (by decide), if_pos rfl, headDigit_natDigits, if_pos rfl,
      scanDigits_append _ 0 rest, scanDigits_stop rest h]
    simp only [Option.some.injEq, Prod.mk.injEq, Nat.zero_mul, Nat.zero_add]
    refine ⟨by omega, trivial⟩

theorem pad2_data_small (w : Int) (h0 : 0 ≤ w) (h9 : w < 10) :
    (pad2 w).data = '0' :: natDigits w.toNat := by
  unfold pad2
  rw [if_pos (by simp only [Bool.and_eq_true, decide_eq_true_eq]; omega)]
  show ('0' :: (intStr w).data) = _
  rw [intStr_data_nonneg w h0]

theorem pad2_data_large (w : Int) (h : ¬ (0 ≤ w ∧ w < 10)) : (pad2 w).data = (intStr w).data := by
  unfold pad2
  rw [if_neg (by simp only [Bool.and_eq_true, decide_eq_true_eq]; omega)]

theorem scanInt_pad2 (w : Int) (h0 : 0 ≤ w) (rest : List Char) (h : headDigit rest = false) :
    scanInt ((pad2 w).data ++ rest) = some (w, rest) := by
  rcases lt_or_le w 10 with hs | hl
  · rw [pad2_data_small w h0 hs, List.cons_append,
      scanInt_cons _ _ (by decide), if_neg (by decide), if_neg (by decide),
      if_pos (by decide : isDigitCh '0' = true),
      scanDigits_cons_digit _ (by decide : isDigitCh '0' = true),
      scanDigits_append _ _ rest, scanDigits_stop rest h]
    simp only [Option.some.injEq, Prod.mk.injEq]
    refine ⟨?_, trivial⟩
    rw [show (10 * 0 + digitVal '0') = 0 from by decide, Nat.zero_mul, Nat.zero_add]
    omega
  · rw [pad2_data_large w (by omega), scanInt_intStr w rest h]

theorem strData_append (a b : String) : (a ++ b).data = a.data ++ b.data := rfl

theorem dropLit_dashW (rest : List Char) :
    dropLit ['-', 'W'] ('-' :: 'W' :: rest) = some rest := rfl

theorem sscanf_weekName (y w : Int) (hw : 0 ≤ w) :
    sscanfIntLitInt "-W" (weekName y w) = some (y, w) := by
  have hdata : (weekName y w).data = (intStr y).data ++ ('-' :: 'W' :: (pad2 w).data) := by
    unfold weekName
    rw [strData_append, strData_append, List.append_assoc]
    rfl
  have hs : scanInt ((pad2 w).data) = some (w, []) := by
    have h2 := scanInt_pad2 w hw [] (by rfl)
    rwa [List.append_nil] at h2
  unfold sscanfIntLitInt
  rw [hdata, scanInt_intStr y _ (by rfl)]
  simp only [dropLit_dashW, hs]

/-! ## Lemmas: calendar arithmetic -/

theorem yearOf_spec (z : Int) : jan1 (yearOf z) ≤ z ∧ z < jan1 (yearOf z + 1) := by
  unfold yearOf jan1 yearOfGuess
  split
  · constructor <;> omega
  · split
    · constructor <;> omega
    · constructor <;> omega

theorem jan1_succ (y : Int) : jan1 (y + 1) = jan1 y + (if isLeap y then 366 else 365) := by
  unfold jan1 isLeap
  split
  all_goals simp_all
  · omega
  · omega

theorem isoWeekdayZ_eq (z : Int) : isoWeekdayZ z = (z + 3) % 7 + 1 := by
  unfold isoWeekdayZ weekdayZ
  split <;> omega

theorem thursdayOf_eq (z : Int) : thursdayOf z = z + 3 - (z + 3) % 7 := by
  unfold thursdayOf
  rw [isoWeekdayZ_eq]
  omega

theorem thursdayOf_mod (z : Int) : thursdayOf z % 7 = 0 := by
  rw [thursdayOf_eq]
  omega

/-- Core Monday identity: reconstructing the week's Monday from the
ISO (year, week) pair lands exactly on Thursday − 3, for any choice of
reference point `j` (January 1 of the ISO year), as long as `t` is a
Thursday-anchored multiple of 7. -/
theorem mondayFromPair (t j : Int) (ht : t % 7 = 0) :
    j + 3 - (isoWeekdayZ (j + 3) - 1) + ((t - j) / 7 + 1 - 1) * 7 = t - 3 := by
  rw [isoWeekdayZ_eq]
  omega

theorem isoWeek_week_nonneg (z : Int) : 0 ≤ (isoWeekOf z).2 := by
  unfold isoWeekOf
  have h := yearOf_spec (thursdayOf z)
  simp only
  omega

theorem mondayOfISOWeek_scanned (name : String) (y w : Int)
    (h : sscanfIntLitInt "-W" name = some (y, w)) :
    mondayOfISOWeek name =
      some (jan1 y + 3 - (isoWeekdayZ (jan1 y + 3) - 1) + (w - 1) * 7) := by
  unfold mondayOfISOWeek
  rw [h]

theorem mondayOfISOWeek_weekKey (z : Int) :
    mondayOfISOWeek (weekKeyOf z) = some (mondayOfZ z) := by
  unfold weekKeyOf
  rw [mondayOfISOWeek_scanned _ _ _ (sscanf_weekName _ _ (isoWeek_week_nonneg z))]
  have hm := mondayFromPair (thursdayOf z) (jan1 (yearOf (thursdayOf z))) (thursdayOf_mod z)
  unfold mondayOfZ isoWeekOf
  simp only [Option.some.injEq]
  omega

theorem isoWeekdayZ_monday (z : Int) : isoWeekdayZ (mondayOfZ z) = 1 := by
  unfold mondayOfZ
  rw [isoWeekdayZ_eq, thursdayOf_eq]
  omega

theorem mondayOfZ_le (z : Int) : mondayOfZ z ≤ z ∧ z ≤ mondayOfZ z + 6 := by
  unfold mondayOfZ
  rw [thursdayOf_eq]
  omega

/-! ## Lemmas: the string order and the reminder comparator -/

theorem charListLt_cons (a b : Char) (as bs : List Char) :
    charListLt (a :: as) (b :: bs) =
      (if a.toNat < b.toNat then true
       else if b.toNat < a.toNat then false
       else charListLt as bs) := rfl

theorem charListLt_asymm : ∀ (a b : List Char),
    charListLt a b = true → charListLt b a = false := by
  intro a
  induction a with
  | nil =>
    intro b _
    cases b <;> rfl
  | cons x xs ih =>
    intro b h
    cases b with
    | nil => simp [charListLt] at h
    | cons y ys =>
      rw [charListLt_cons] at h ⊢
      by_cases h1 : x.toNat < y.toNat
      · rw [if_neg (by omega), if_pos h1]
      · by_cases h2 : y.toNat < x.toNat
        · rw [if_neg h1, if_pos h2] at h
          exact absurd h (by simp)
        · rw [if_neg h1, if_neg h2] at h
          rw [if_neg h2, if_neg h1]
          exact ih ys h

theorem charListLt_trans : ∀ (a b c : List Char),
    charListLt a b = true → charListLt b c = true → charListLt a c = true := by
  intro a
  induction a with
  | nil =>
    intro b c hab hbc
    cases c with
    | nil =>
      cases b with
      | nil => exact hab
      | cons y ys => simp [charListLt] at hbc
    | cons z zs => rfl
  | cons x xs ih =>
    intro b c hab hbc
    cases b with
    | nil => simp [charListLt] at hab
    | cons y ys =>
      cases c with
      | nil => simp [charListLt] at hbc
      | cons z zs =>
        rw [charListLt_cons] at hab hbc ⊢
        by_cases h1 : x.toNat < y.toNat <;> by_cases h2 : y.toNat < z.toNat
        · rw [if_pos (by omega)]
        · rw [if_neg h2] at hbc
          by_cases h3 : z.toNat < y.toNat
          · rw [if_pos h3] at hbc
            exact absurd hbc (by simp)
          · rw [if_pos (by omega)]
        · rw [if_neg h1] at hab
          by_cases h3 : y.toNat < x.toNat
          · rw [if_pos h3] at hab
            exact absurd hab (by simp)
          · rw [if_pos (by omega)]
        · rw [if_neg h1] at hab
          rw [if_neg h2] at hbc
          by_cases h3 : y.toNat < x.toNat
          · rw [if_pos h3] at hab
            exact absurd hab (by simp)
          · by_cases h4 : z.toNat < y.toNat
            · rw [if_pos h4] at hbc
              exact absurd hbc (by simp)
            · rw [if_neg h3] at hab
              rw [if_neg h4] at hbc
              rw [if_neg (by omega), if_neg (by omega)]
              exact ih ys zs hab hbc

theorem charListLt_conn : ∀ (a b : List Char),
    charListLt a b = false → charListLt b a = false → a = b := by
  intro a
  induction a with
  | nil =>
    intro b hab _
    cases b with
    | nil => rfl
    | cons y ys => simp [charListLt] at hab
  | cons x xs ih =>
    intro b hab hba
    cases b with
    | nil => simp [charListLt] at hba
    | cons y ys =>
      rw [charListLt_cons] at hab hba
      by_cases h1 : x.toNat < y.toNat
      · rw [if_pos h1] at hab
        exact absurd hab (by simp)
      · by_cases h2 : y.toNat < x.toNat
        · rw [if_pos h2] at hba
          exact absurd hba (by simp)
        · rw [if_neg h1, if_neg h2] at hab
          rw [if_neg h2, if_neg h1] at hba
          have hxy : x = y := Char.ext (by
            apply UInt32.ext
            have hx := x.val.toNat_lt
            have hy := y.val.toNat_lt
            change ¬ x.val.toNat < y.val.toNat at h1
            change ¬ y.val.toNat < x.val.toNat at h2
            omega)
          rw [hxy, ih ys hab hba]

theorem strLt_asymm (a b : String) (h : strLt a b = true) : strLt b a = false :=
  charListLt_asymm a.data b.data h

theorem strLt_conn (a b : String) (hab : strLt a b = false) (hba : strLt b a = false) :
    a = b := by
  cases a
  cases b
  exact congrArg String.mk (charListLt_conn _ _ hab hba)

theorem reminderLess_asymm (a b : Reminder) (h : reminderLess a b = true) :
    reminderLess b a = false := by
  unfold reminderLess at h ⊢
  by_cases hc : categoryOrder a.category = categoryOrder b.category
  · rw [if_neg (by omega)] at h ⊢
    exact charListLt_asymm _ _ h
  · rw [if_pos hc] at h
    rw [if_pos (by omega)]
    simp only [decide_eq_true_eq] at h
    simp only [decide_eq_false_iff_not]
    omega

theorem reminderLe_total (a b : Reminder) : (reminderLe a b || reminderLe b a) = true := by
  unfold reminderLe
  by_cases h : reminderLess b a = true
  · rw [reminderLess_asymm b a h]
    simp
  · simp only [Bool.not_eq_true] at h
    rw [h]
    simp

theorem reminderLess_of_not_not (a b : Reminder) (hab : reminderLess a b = false)
    (hba : reminderLess b a = false) :
    categoryOrder a.category = categoryOrder b.category ∧ a.name = b.name := by
  unfold reminderLess at hab hba
  by_cases hc : categoryOrder a.category = categoryOrder b.category
  · rw [if_neg (by omega)] at hab hba
    exact ⟨hc, strLt_conn _ _ hba hab⟩
  · rw [if_pos hc] at hab
    rw [if_pos (by omega)] at hba
    simp only [decide_eq_false_iff_not] at hab hba
    omega

theorem reminderLess_trans (a b c : Reminder) (hab : reminderLess a b = true)
    (hbc : reminderLess b c = true) : reminderLess a c = true := by
  unfold reminderLess at hab hbc ⊢
  by_cases h1 : categoryOrder a.category = categoryOrder b.category <;>
    by_cases h2 : categoryOrder b.category = categoryOrder c.category
  · rw [if_neg (by omega)] at hab hbc
    rw [if_neg (by omega)]
    exact charListLt_trans _ _ _ hbc hab
  · rw [if_pos h2] at hbc
    rw [if_pos (by omega)]
    simp only [decide_eq_true_eq] at hbc ⊢
    omega
  · rw [if_pos h1] at hab
    rw [if_pos (by omega)]
    simp only [decide_eq_true_eq] at hab ⊢
    omega
  · rw [if_pos h1] at hab
    rw [if_pos h2] at hbc
    simp only [decide_eq_true_eq] at hab hbc
    rw [if_pos (by omega)]
    simp only [decide_eq_true_eq]
    omega

theorem reminderLess_congr (a b x : Reminder)
    (hco : categoryOrder a.category = categoryOrder b.category) (hnm : a.name = b.name) :
    reminderLess a x = reminderLess b x ∧ reminderLess x a = reminderLess x b := by
  unfold reminderLess
  rw [hco, hnm]
  exact ⟨rfl, rfl⟩

theorem reminderLess_negTrans (a b c : Reminder) (h : reminderLess c a = true) :
    reminderLess c b = true ∨ reminderLess b a = true := by
  by_cases hcb : reminderLess c b = true
  · exact Or.inl hcb
  · by_cases hbc : reminderLess b c = true
    · exact Or.inr (reminderLess_trans b c a hbc h)
    · simp only [Bool.not_eq_true] at hcb hbc
      have hk := reminderLess_of_not_not c b hcb hbc
      have hc := reminderLess_congr c b a hk.1 hk.2
      exact Or.inr (by rw [← hc.1]; exact h)

theorem reminderLe_trans (a b c : Reminder) (hab : reminderLe a b = true)
    (hbc : reminderLe b c = true) : reminderLe a c = true := by
  unfold reminderLe at hab hbc ⊢
  simp only [Bool.not_eq_true'] at hab hbc ⊢
  by_contra hca
  simp only [Bool.not_eq_false] at hca
  rcases reminderLess_negTrans a b c hca with h | h
  · rw [h] at hbc
    exact absurd hbc (by simp)
  · rw [h] at hab
    exact absurd hab (by simp)

/-! ## Lemmas: period-set accumulation and reminder construction -/

theorem insertNew_mem (acc : List String) (k x : String) :
    x ∈ insertNew acc k ↔ x ∈ acc ∨ x = k := by
  unfold insertNew
  split
  · constructor
    · exact Or.inl
    · rintro (h | h)
      · exact h
      · subst h
        assumption
  · simp [List.mem_append]

theorem insertNew_nodup (acc : List String) (k : String) (h : acc.Nodup) :
    (insertNew acc k).Nodup := by
  unfold insertNew
  split
  · exact h
  · rw [List.nodup_append]
    exact ⟨h, List.nodup_singleton k, by
      intro x hx
      simp only [List.mem_singleton]
      intro he
      subst he
      exact absurd hx (by assumption)⟩

theorem accumKeys_go_mem (keyOf : Int → String) (cur : String) :
    ∀ (dates : List Int) (acc : List String) (P : String),
    P ∈ dates.foldl (fun acc d => if keyOf d = cur then acc else insertNew acc (keyOf d)) acc ↔
      P ∈ acc ∨ ((∃ d ∈ dates, keyOf d = P) ∧ P ≠ cur) := by
  intro dates
  induction dates with
  | nil => simp
  | cons d rest ih =>
    intro acc P
    rw [List.foldl_cons, ih]
    by_cases hd : keyOf d = cur
    · rw [if_pos hd]
      constructor
      · rintro (h | h)
        · exact Or.inl h
        · exact Or.inr ⟨⟨h.1.choose, List.mem_cons_of_mem d h.1.choose_spec.1,
            h.1.choose_spec.2⟩, h.2⟩
      · rintro (h | ⟨⟨e, he, hk⟩, hne⟩)
        · exact Or.inl h
        · rcases List.mem_cons.mp he with h1 | h1
          · subst h1
            exact absurd rfl (by rw [hd] at hk; rw [hk] at hne; exact hne)
          · exact Or.inr ⟨⟨e, h1, hk⟩, hne⟩
    · rw [if_neg hd, insertNew_mem]
      constructor
      · rintro ((h | h) | h)
        · exact Or.inl h
        · exact Or.inr ⟨⟨d, List.mem_cons_self d rest, h.symm⟩, by rw [h]; exact hd⟩
        · exact Or.inr ⟨⟨h.1.choose, List.mem_cons_of_mem d h.1.choose_spec.1,
            h.1.choose_spec.2⟩, h.2⟩
      · rintro (h | ⟨⟨e, he, hk⟩, hne⟩)
        · exact Or.inl (Or.inl h)
        · rcases List.mem_cons.mp he with h1 | h1
          · subst h1
            exact Or.inl (Or.inr hk.symm)
          · exact Or.inr ⟨⟨e, h1, hk⟩, hne⟩

theorem accumKeys_mem (keyOf : Int → String) (cur : String) (dates : List Int) (P : String) :
    P ∈ accumKeys keyOf cur dates ↔ ((∃ d ∈ dates, keyOf d = P) ∧ P ≠ cur) := by
  unfold accumKeys
  rw [accumKeys_go_mem]
  simp

theorem accumKeys_go_nodup (keyOf : Int → String) (cur : String) :
    ∀ (dates : List Int) (acc : List String), acc.Nodup →
    (dates.foldl (fun acc d => if keyOf d = cur then acc else insertNew acc (keyOf d)) acc).Nodup := by
  intro dates
  induction dates with
  | nil => exact fun acc h => h
  | cons d rest ih =>
    intro acc hacc
    rw [List.foldl_cons]
    apply ih
    split
    · exact hacc
    · exact insertNew_nodup acc _ hacc

theorem accumKeys_nodup (keyOf : Int → String) (cur : String) (dates : List Int) :
    (accumKeys keyOf cur dates).Nodup :=
  accumKeys_go_nodup keyOf cur dates [] List.nodup_nil

theorem remindersForCategory_mem (store : NoteStore) (cat : Category) (names : List String)
    (r : Reminder) :
    r ∈ remindersForCategory store cat names ↔
      ∃ n ∈ names, store.noteExists cat n = false ∧
        r = ⟨cat, n, categoryWord cat ++ " summary for " ++ n⟩ := by
  unfold remindersForCategory
  rw [List.mem_filterMap]
  constructor
  · rintro ⟨n, hn, hf⟩
    split at hf
    · exact absurd hf (by simp)
    · exact ⟨n, hn, by simp_all, by simp_all⟩
  · rintro ⟨n, hn, hex, hr⟩
    refine ⟨n, hn, ?_⟩
    rw [if_neg (by rw [hex]; simp)]
    rw [hr]

theorem remindersForCategory_category (store : NoteStore) (cat : Category)
    (names : List String) (r : Reminder) (h : r ∈ remindersForCategory store cat names) :
    r.category = cat := by
  rcases (remindersForCategory_mem store cat names r).mp h with ⟨n, _, _, hr⟩
  rw [hr]

theorem remindersForCategory_nodup (store : NoteStore) (cat : Category)
    (names : List String) (h : names.Nodup) :
    (remindersForCategory store cat names).Nodup := by
  unfold remindersForCategory
  apply List.Nodup.filterMap ?_ h
  intro a a' b hb hb'
  simp only [Option.mem_def] at hb hb'
  have h1 : b.name = a := by
    split at hb
    · exact absurd hb (by simp)
    · rw [← Option.some.inj hb]
  have h2 : b.name = a' := by
    split at hb'
    · exact absurd hb' (by simp)
    · rw [← Option.some.inj hb']
  rw [← h1, h2]

theorem sortReminders_perm (l : List Reminder) : (sortReminders l).Perm l :=
  List.perm_insertionSort reminderLeP l

theorem sortReminders_mem (l : List Reminder) (r : Reminder) :
    r ∈ sortReminders l ↔ r ∈ l :=
  (sortReminders_perm l).mem_iff

theorem buildReminders_mem (store : NoteStore) (ws ms qs ys : List String) (r : Reminder) :
    r ∈ buildReminders store ws ms qs ys ↔
      (r ∈ remindersForCategory store .weekly ws ∨
       r ∈ remindersForCategory store .monthly ms ∨
       r ∈ remindersForCategory store .quarterly qs ∨
       r ∈ remindersForCategory store .yearly ys) := by
  unfold buildReminders
  simp [List.mem_append, or_assoc]

theorem checkMissing_error (store : NoteStore) (now : Int) (e : String)
    (h : store.listDaily = .error e) : checkMissingSummaries store now = .error e := by
  unfold checkMissingSummaries
  rw [h]

theorem checkMissing_ok (store : NoteStore) (now : Int) (names : List String)
    (h : store.listDaily = .ok names) :
    checkMissingSummaries store now = scanCore store now names := by
  unfold checkMissingSummaries
  rw [h]

theorem checkMissing_noDates (store : NoteStore) (now : Int) (names : List String)
    (h : store.listDaily = .ok names) (hd : names.filterMap parseDate = []) :
    checkMissingSummaries store now = .ok [] := by
  rw [checkMissing_ok store now names h]
  unfold scanCore
  by_cases hne : names = []
  · rw [if_pos hne]
  · rw [if_neg hne, if_pos hd]

theorem checkMissing_main (store : NoteStore) (now : Int) (names : List String)
    (h : store.listDaily = .ok names) (hd : names.filterMap parseDate ≠ []) :
    checkMissingSummaries store now = .ok (sortReminders (buildReminders store
      (accumKeys weekKeyOf (weekKeyOf now) (names.filterMap parseDate))
      (accumKeys monthKeyOf (monthKeyOf now) (names.filterMap parseDate))
      (accumKeys quarterKeyOf (quarterKeyOf now) (names.filterMap parseDate))
      (accumKeys yearKeyOf (yearKeyOf now) (names.filterMap parseDate)))) := by
  rw [checkMissing_ok store now names h]
  unfold scanCore
  have hne : names ≠ [] := by
    intro he
    rw [he] at hd
    exact hd rfl
  rw [if_neg hne, if_neg hd]

theorem mem_scan_category (store : NoteStore) (now : Int) (dates : List Int)
    (cat : Category) (hcat : cat ≠ .daily) (P : String) :
    (∃ label, Reminder.mk cat P label ∈ buildReminders store
       (accumKeys weekKeyOf (weekKeyOf now) dates)
       (accumKeys monthKeyOf (monthKeyOf now) dates)
       (accumKeys quarterKeyOf (quarterKeyOf now) dates)
       (accumKeys yearKeyOf (yearKeyOf now) dates)) ↔
      ((∃ d ∈ dates, summaryKeyOf cat d = P) ∧ P ≠ summaryKeyOf cat now ∧
        store.noteExists cat P = false) := by
  have extract : ∀ (c : Category) (keyOf : Int → String) (label : String),
      (∀ d, summaryKeyOf c d = keyOf d) →
      Reminder.mk cat P label ∈
        remindersForCategory store c (accumKeys keyOf (keyOf now) dates) →
      cat = c →
      ((∃ d ∈ dates, summaryKeyOf cat d = P) ∧ P ≠ summaryKeyOf cat now ∧
        store.noteExists cat P = false) := by
    intro c keyOf label hkey hmem hc
    rcases (remindersForCategory_mem _ _ _ _).mp hmem with ⟨n, hn, hex, hr⟩
    have hP : P = n := congrArg Reminder.name hr
    subst hP
    rcases (accumKeys_mem _ _ _ _).mp hn with ⟨⟨d, hd, hk⟩, hne⟩
    subst hc
    exact ⟨⟨d, hd, by rw [hkey]; exact hk⟩, by rw [hkey]; exact hne, hex⟩
  have inject : ∀ (c : Category) (keyOf : Int → String),
      (∀ d, summaryKeyOf c d = keyOf d) → cat = c →
      ((∃ d ∈ dates, summaryKeyOf cat d = P) ∧ P ≠ summaryKeyOf cat now ∧
        store.noteExists cat P = false) →
      Reminder.mk cat P (categoryWord cat ++ " summary for " ++ P) ∈
        remindersForCategory store c (accumKeys keyOf (keyOf now) dates) := by
    intro c keyOf hkey hc hrh
    rcases hrh with ⟨⟨d, hd, hk⟩, hne, hex⟩
    subst hc
    apply (remindersForCategory_mem _ _ _ _).mpr
    refine ⟨P, ?_, hex, rfl⟩
    apply (accumKeys_mem _ _ _ _).mpr
    exact ⟨⟨d, hd, by rw [← hkey]; exact hk⟩, by rw [← hkey]; exact hne⟩
  constructor
  · rintro ⟨label, hmem⟩
    rcases (buildReminders_mem _ _ _ _ _ _).mp hmem with h | h | h | h
    · have hc := remindersForCategory_category _ _ _ _ h
      exact extract .weekly weekKeyOf label (fun d => rfl) h hc
    · have hc := remindersForCategory_category _ _ _ _ h
      exact extract .monthly monthKeyOf label (fun d => rfl) h hc
    · have hc := remindersForCategory_category _ _ _ _ h
      exact extract .quarterly quarterKeyOf label (fun d => rfl) h hc
    · have hc := remindersForCategory_category _ _ _ _ h
      exact extract .yearly yearKeyOf label (fun d => rfl) h hc
  · intro hrh
    refine ⟨categoryWord cat ++ " summary for " ++ P, ?_⟩
    apply (buildReminders_mem _ _ _ _ _ _).mpr
    cases cat with
    | daily => exact absurd rfl hcat
    | weekly => exact Or.inl (inject .weekly weekKeyOf (fun d => rfl) rfl hrh)
    | monthly => exact Or.inr (Or.inl (inject .monthly monthKeyOf (fun d => rfl) rfl hrh))
    | quarterly =>
      exact Or.inr (Or.inr (Or.inl (inject .quarterly quarterKeyOf (fun d => rfl) rfl hrh)))
    | yearly =>
      exact Or.inr (Or.inr (Or.inr (inject .yearly yearKeyOf (fun d => rfl) rfl hrh)))

/-! ## Claim C1 -/

/-- Claim C1, counterexample to the claim as stated: with a single daily
note dated 2030-01-01 (day 21915) and "now" = 2025-06-15 (day 20254), the
scan emits a Weekly reminder for period `2030-W01` even though that week
is not strictly in the past — its Monday (day 21914) lies after "now", so
no day of the period is past.  Condition (b) of the claim therefore does
not characterise the emitted reminders. -/
theorem claim1_counterexample :
    checkMissingSummaries ⟨.ok ["2030-01-01"], fun _ _ => "", fun _ _ => false⟩ 20254 =
      .ok [⟨.weekly, "2030-W01", "Weekly summary for 2030-W01"⟩,
           ⟨.monthly, "2030-01", "Monthly summary for 2030-01"⟩,
           ⟨.quarterly, "2030-Q1", "Quarterly summary for 2030-Q1"⟩,
           ⟨.yearly, "2030", "Yearly summary for 2030"⟩] ∧
    mondayOfISOWeek "2030-W01" = some 21914 ∧ 20254 < 21914 :=
  ⟨by rfl, by rfl, by decide⟩

/-- Claim C1 (amended): for every project and period category C among
Weekly/Monthly/Quarterly/Yearly, the scan emits a reminder for period P
in C iff (a) some daily note whose name parses as a date has P as its
enclosing C-period, (b') P differs from the current C-period of the
captured "now" (periods wholly in the future are reminded as well, so
"strictly in the past" weakens to "not the current period"), and (c) no
note exists at (project, C, P). -/
theorem claim1_reminder_iff (store : NoteStore) (now : Int) (names : List String)
    (h : store.listDaily = .ok names) (cat : Category) (hcat : cat ≠ .daily)
    (P : String) (l : List Reminder)
    (hres : checkMissingSummaries store now = .ok l) :
    (∃ label, Reminder.mk cat P label ∈ l) ↔
      ((∃ d ∈ names.filterMap parseDate, summaryKeyOf cat d = P) ∧
        P ≠ summaryKeyOf cat now ∧ store.noteExists cat P = false) := by
  by_cases hd : names.filterMap parseDate = []
  · have hnil := checkMissing_noDates store now names h hd
    rw [hres] at hnil
    have hl : l = [] := Except.ok.inj hnil
    subst hl
    rw [hd]
    simp
  · have hmain := checkMissing_main store now names h hd
    rw [hres] at hmain
    have hl : l = sortReminders (buildReminders store
        (accumKeys weekKeyOf (weekKeyOf now) (names.filterMap parseDate))
        (accumKeys monthKeyOf (monthKeyOf now) (names.filterMap parseDate))
        (accumKeys quarterKeyOf (quarterKeyOf now) (names.filterMap parseDate))
        (accumKeys yearKeyOf (yearKeyOf now) (names.filterMap parseDate))) :=
      Except.ok.inj hmain
    subst hl
    rw [show (∃ label, Reminder.mk cat P label ∈ sortReminders (buildReminders store
        (accumKeys weekKeyOf (weekKeyOf now) (names.filterMap parseDate))
        (accumKeys monthKeyOf (monthKeyOf now) (names.filterMap parseDate))
        (accumKeys quarterKeyOf (quarterKeyOf now) (names.filterMap parseDate))
        (accumKeys yearKeyOf (yearKeyOf now) (names.filterMap parseDate)))) ↔
      (∃ label, Reminder.mk cat P label ∈ buildReminders store
        (accumKeys weekKeyOf (weekKeyOf now) (names.filterMap parseDate))
        (accumKeys monthKeyOf (monthKeyOf now) (names.filterMap parseDate))
        (accumKeys quarterKeyOf (quarterKeyOf now) (names.filterMap parseDate))
        (accumKeys yearKeyOf (yearKeyOf now) (names.filterMap parseDate)))
      from exists_congr (fun label => sortReminders_mem _ _)]
    exact mem_scan_category store now (names.filterMap parseDate) cat hcat P

/-- Claim C1 witness: the amended equivalence applied at the concrete
counterexample store, category Weekly, period `2030-W01`. -/
theorem claim1_reminder_iff_witness :
    (∃ label, Reminder.mk .weekly "2030-W01" label ∈
        ([⟨.weekly, "2030-W01", "Weekly summary for 2030-W01"⟩,
          ⟨.monthly, "2030-01", "Monthly summary for 2030-01"⟩,
          ⟨.quarterly, "2030-Q1", "Quarterly summary for 2030-Q1"⟩,
          ⟨.yearly, "2030", "Yearly summary for 2030"⟩] : List Reminder)) ↔
      ((∃ d ∈ (["2030-01-01"] : List String).filterMap parseDate,
          summaryKeyOf .weekly d = "2030-W01") ∧
        "2030-W01" ≠ summaryKeyOf .weekly (20254 : Int) ∧
        (NoteStore.mk (.ok ["2030-01-01"]) (fun _ _ => "") (fun _ _ => false)).noteExists
          .weekly "2030-W01" = false) :=
  claim1_reminder_iff ⟨.ok ["2030-01-01"], fun _ _ => "", fun _ _ => false⟩ 20254
    ["2030-01-01"] rfl .weekly (by decide) "2030-W01" _ (by rfl)

/-! ## Sortedness infrastructure (claims C5 and C9) -/

instance reminderLePTotal : IsTotal Reminder reminderLeP :=
  ⟨fun a b => by
    have h := reminderLe_total a b
    unfold reminderLeP
    rcases Bool.or_eq_true_iff.mp h with h1 | h1
    · exact Or.inl h1
    · exact Or.inr h1⟩

instance reminderLePTrans : IsTrans Reminder reminderLeP :=
  ⟨fun a b c hab hbc => reminderLe_trans a b c hab hbc⟩

theorem sortReminders_sorted (l : List Reminder) :
    List.Sorted reminderLeP (sortReminders l) :=
  List.sorted_insertionSort reminderLeP l

/-- Distinctness of the (category order, period name) sort keys. -/
def reminderKeyNe (a b : Reminder) : Prop :=
  ¬ (categoryOrder a.category = categoryOrder b.category ∧ a.name = b.name)

theorem reminderKeyNe_symm {a b : Reminder} (h : reminderKeyNe a b) : reminderKeyNe b a := by
  unfold reminderKeyNe at h ⊢
  intro hc
  exact h ⟨hc.1.symm, hc.2.symm⟩

/-- Strict order on reminders: category order ascending, then name
strictly descending. -/
def reminderLtP (a b : Reminder) : Prop :=
  categoryOrder a.category < categoryOrder b.category ∨
    (categoryOrder a.category = categoryOrder b.category ∧ strLt b.name a.name = true)

theorem reminderLtP_asymm (a b : Reminder) (h : reminderLtP a b) : ¬ reminderLtP b a := by
  unfold reminderLtP at h ⊢
  rintro (h2 | h2) <;> rcases h with h1 | h1
  · omega
  · omega
  · omega
  · have := strLt_asymm _ _ h1.2
    rw [h2.2] at this
    simp at this

theorem reminderLeP_keyNe_lt (a b : Reminder) (hle : reminderLeP a b)
    (hne : reminderKeyNe a b) : reminderLtP a b := by
  unfold reminderLeP reminderLe at hle
  simp only [Bool.not_eq_true'] at hle
  unfold reminderLess at hle
  unfold reminderLtP reminderKeyNe at *
  by_cases hc : categoryOrder b.category = categoryOrder a.category
  · rw [if_neg (by omega)] at hle
    refine Or.inr ⟨hc.symm, ?_⟩
    by_cases hba : strLt b.name a.name = true
    · exact hba
    · simp only [Bool.not_eq_true] at hba
      exact absurd ⟨hc.symm, strLt_conn _ _ hle hba⟩ hne
  · rw [if_pos hc] at hle
    simp only [decide_eq_false_iff_not] at hle
    exact Or.inl (by omega)

theorem sortReminders_strictSorted (l : List Reminder)
    (hk : List.Pairwise reminderKeyNe l) :
    List.Pairwise reminderLtP (sortReminders l) := by
  have hs : List.Pairwise reminderLeP (sortReminders l) := sortReminders_sorted l
  have hk2 : List.Pairwise reminderKeyNe (sortReminders l) :=
    (List.Perm.pairwise_iff (fun h => reminderKeyNe_symm h) (sortReminders_perm l)).mpr hk
  exact (hs.and hk2).imp (fun h => reminderLeP_keyNe_lt _ _ h.1 h.2)

theorem sortReminders_eq_of_perm (l₁ l₂ : List Reminder) (hp : l₁.Perm l₂)
    (hk : List.Pairwise reminderKeyNe l₂) :
    sortReminders l₁ = sortReminders l₂ := by
  haveI : IsAntisymm Reminder reminderLtP :=
    ⟨fun a b h1 h2 => absurd h2 (reminderLtP_asymm a b h1)⟩
  apply List.eq_of_perm_of_sorted (r := reminderLtP)
  · exact ((sortReminders_perm l₁).trans hp).trans (sortReminders_perm l₂).symm
  · exact sortReminders_strictSorted l₁
      ((List.Perm.pairwise_iff (fun h => reminderKeyNe_symm h) hp).mpr hk)
  · exact sortReminders_strictSorted l₂ hk

theorem remindersForCategory_name (store : NoteStore) (cat : Category)
    (n : String) (r : Reminder)
    (h : r ∈ (if store.noteExists cat n then none
      else some (⟨cat, n, categoryWord cat ++ " summary for " ++ n⟩ : Reminder))) :
    r.name = n ∧ r.category = cat := by
  split at h
  · exact absurd h (by simp)
  · simp only [Option.mem_def, Option.some.injEq] at h
    rw [← h]
    exact ⟨rfl, rfl⟩

theorem remindersForCategory_keysDistinct (store : NoteStore) (cat : Category)
    (names : List String) (h : names.Nodup) :
    List.Pairwise reminderKeyNe (remindersForCategory store cat names) := by
  unfold remindersForCategory
  apply List.Pairwise.filterMap _ ?_ h
  intro a a' hne b hb b' hb'
  have h1 := remindersForCategory_name store cat a b hb
  have h2 := remindersForCategory_name store cat a' b' hb'
  unfold reminderKeyNe
  intro hc
  exact hne (by rw [← h1.1, ← h2.1, hc.2])

theorem buildReminders_keysDistinct (store : NoteStore) (ws ms qs ys : List String)
    (hw : ws.Nodup) (hm : ms.Nodup) (hq : qs.Nodup) (hy : ys.Nodup) :
    List.Pairwise reminderKeyNe (buildReminders store ws ms qs ys) := by
  have hcross : ∀ (c1 c2 : Category) (ns1 ns2 : List String),
      categoryOrder c1 ≠ categoryOrder c2 →
      ∀ a ∈ remindersForCategory store c1 ns1, ∀ b ∈ remindersForCategory store c2 ns2,
        reminderKeyNe a b := by
    intro c1 c2 ns1 ns2 hne a ha b hb
    have h1 := remindersForCategory_category store c1 ns1 a ha
    have h2 := remindersForCategory_category store c2 ns2 b hb
    unfold reminderKeyNe
    intro hc
    rw [h1, h2] at hc
    exact hne hc.1
  unfold buildReminders
  rw [List.pairwise_append]
  refine ⟨?_, ?_, ?_⟩
  · rw [List.pairwise_append]
    refine ⟨?_, ?_, ?_⟩
    · rw [List.pairwise_append]
      exact ⟨remindersForCategory_keysDistinct store _ ws hw,
        remindersForCategory_keysDistinct store _ ms hm,
        hcross .weekly .monthly ws ms (by decide)⟩
    · exact remindersForCategory_keysDistinct store _ qs hq
    · intro a ha b hb
      rcases List.mem_append.mp ha with h1 | h1
      · exact hcross .weekly .quarterly ws qs (by decide) a h1 b hb
      · exact hcross .monthly .quarterly ms qs (by decide) a h1 b hb
  · exact remindersForCategory_keysDistinct store _ ys hy
  · intro a ha b hb
    rcases List.mem_append.mp ha with h1 | h1
    · rcases List.mem_append.mp h1 with h2 | h2
      · exact hcross .weekly .yearly ws ys (by decide) a h2 b hb
      · exact hcross .monthly .yearly ms ys (by decide) a h2 b hb
    · exact hcross .quarterly .yearly qs ys (by decide) a h1 b hb

theorem reminderLeP_implies (a b : Reminder) (h : reminderLeP a b) :
    categoryOrder a.category < categoryOrder b.category ∨
      (categoryOrder a.category = categoryOrder b.category ∧ strLt a.name b.name = false) := by
  unfold reminderLeP reminderLe at h
  simp only [Bool.not_eq_true'] at h
  unfold reminderLess at h
  by_cases hc : categoryOrder b.category = categoryOrder a.category
  · rw [if_neg (by omega)] at h
    exact Or.inr ⟨hc.symm, h⟩
  · rw [if_pos hc] at h
    simp only [decide_eq_false_iff_not] at h
    exact Or.inl (by omega)

theorem remindersForCategory_label (store : NoteStore) (cat : Category)
    (names : List String) (r : Reminder) (h : r ∈ remindersForCategory store cat names) :
    r.label = categoryWord r.category ++ " summary for " ++ r.name := by
  rcases (remindersForCategory_mem store cat names r).mp h with ⟨n, _, _, hr⟩
  rw [hr]

/-! ## Claim C5 -/

/-- Claim C5: every reminder list returned by the scan is sorted primarily
by category in the fixed order Weekly < Monthly < Quarterly < Yearly
(ascending `categoryOrder`) and secondarily by period name descending
(no earlier name is byte-wise below a later one within a category), and
every reminder's label is exactly `<CategoryWord> summary for <period>`. -/
theorem claim5_sorted_labels (store : NoteStore) (now : Int) (l : List Reminder)
    (hres : checkMissingSummaries store now = .ok l) :
    List.Pairwise (fun a b : Reminder =>
      categoryOrder a.category < categoryOrder b.category ∨
        (categoryOrder a.category = categoryOrder b.category ∧
          strLt a.name b.name = false)) l ∧
    ∀ r ∈ l, r.label = categoryWord r.category ++ " summary for " ++ r.name := by
  cases hld : store.listDaily with
  | error e =>
    rw [checkMissing_error store now e hld] at hres
    exact absurd hres (by simp)
  | ok names =>
    by_cases hd : names.filterMap parseDate = []
    · rw [checkMissing_noDates store now names hld hd] at hres
      have hl : l = [] := Except.ok.inj hres.symm
      subst hl
      simp
    · rw [checkMissing_main store now names hld hd] at hres
      have hl : l = sortReminders (buildReminders store
          (accumKeys weekKeyOf (weekKeyOf now) (names.filterMap parseDate))
          (accumKeys monthKeyOf (monthKeyOf now) (names.filterMap parseDate))
          (accumKeys quarterKeyOf (quarterKeyOf now) (names.filterMap parseDate))
          (accumKeys yearKeyOf (yearKeyOf now) (names.filterMap parseDate))) :=
        Except.ok.inj hres.symm
      subst hl
      constructor
      · exact (sortReminders_sorted _).imp (fun h => reminderLeP_implies _ _ h)
      · intro r hr
        rcases (buildReminders_mem _ _ _ _ _ _).mp ((sortReminders_mem _ _).mp hr) with
          h | h | h | h
        · exact remindersForCategory_label _ _ _ _ h
        · exact remindersForCategory_label _ _ _ _ h
        · exact remindersForCategory_label _ _ _ _ h
        · exact remindersForCategory_label _ _ _ _ h

/-- Claim C5 witness: the sortedness and label shape hold for the concrete
scan output of a store with one future daily note. -/
theorem claim5_sorted_labels_witness :
    List.Pairwise (fun a b : Reminder =>
      categoryOrder a.category < categoryOrder b.category ∨
        (categoryOrder a.category = categoryOrder b.category ∧
          strLt a.name b.name = false))
      [⟨.weekly, "2030-W01", "Weekly summary for 2030-W01"⟩,
       ⟨.monthly, "2030-01", "Monthly summary for 2030-01"⟩,
       ⟨.quarterly, "2030-Q1", "Quarterly summary for 2030-Q1"⟩,
       ⟨.yearly, "2030", "Yearly summary for 2030"⟩] ∧
    ∀ r ∈ ([⟨.weekly, "2030-W01", "Weekly summary for 2030-W01"⟩,
       ⟨.monthly, "2030-01", "Monthly summary for 2030-01"⟩,
       ⟨.quarterly, "2030-Q1", "Quarterly summary for 2030-Q1"⟩,
       ⟨.yearly, "2030", "Yearly summary for 2030"⟩] : List Reminder),
      r.label = categoryWord r.category ++ " summary for " ++ r.name :=
  claim5_sorted_labels ⟨.ok ["2030-01-01"], fun _ _ => "", fun _ _ => false⟩ 20254 _ (by rfl)

/-! ## Claim C9 -/

/-- Claim C9: the scan is a deterministic function of the store contents
and the captured "now", despite accumulating periods in unordered sets:
whatever order the four period sets are enumerated in (any permutation of
the canonical accumulation), building and sorting the reminders yields
exactly the scan's output, so two scans with no intervening writes return
identical ordered output. -/
theorem claim9_idempotent (store : NoteStore) (now : Int) (names : List String)
    (h : store.listDaily = .ok names) (hd : names.filterMap parseDate ≠ [])
    (ws ms qs ys : List String)
    (hw : ws.Perm (accumKeys weekKeyOf (weekKeyOf now) (names.filterMap parseDate)))
    (hm : ms.Perm (accumKeys monthKeyOf (monthKeyOf now) (names.filterMap parseDate)))
    (hq : qs.Perm (accumKeys quarterKeyOf (quarterKeyOf now) (names.filterMap parseDate)))
    (hy : ys.Perm (accumKeys yearKeyOf (yearKeyOf now) (names.filterMap parseDate))) :
    Except.ok (sortReminders (buildReminders store ws ms qs ys)) =
      checkMissingSummaries store now := by
  rw [checkMissing_main store now names h hd]
  have hperm : (buildReminders store ws ms qs ys).Perm
      (buildReminders store
        (accumKeys weekKeyOf (weekKeyOf now) (names.filterMap parseDate))
        (accumKeys monthKeyOf (monthKeyOf now) (names.filterMap parseDate))
        (accumKeys quarterKeyOf (quarterKeyOf now) (names.filterMap parseDate))
        (accumKeys yearKeyOf (yearKeyOf now) (names.filterMap parseDate))) := by
    unfold buildReminders remindersForCategory
    exact (((hw.filterMap _).append (hm.filterMap _)).append (hq.filterMap _)).append
      (hy.filterMap _)
  rw [sortReminders_eq_of_perm _ _ hperm
    (buildReminders_keysDistinct store _ _ _ _
      (accumKeys_nodup _ _ _) (accumKeys_nodup _ _ _)
      (accumKeys_nodup _ _ _) (accumKeys_nodup _ _ _))]

/-- Claim C9 witness: enumerating the week set in reversed order still
produces the scan's exact output for a concrete two-week store. -/
theorem claim9_idempotent_witness :
    Except.ok (sortReminders (buildReminders
        ⟨.ok ["2025-01-06", "2025-01-13"], fun _ _ => "", fun _ _ => false⟩
        ["2025-W03", "2025-W02"] ["2025-01"] ["2025-Q1"] [])) =
      checkMissingSummaries
        ⟨.ok ["2025-01-06", "2025-01-13"], fun _ _ => "", fun _ _ => false⟩ 20254 :=
  claim9_idempotent ⟨.ok ["2025-01-06", "2025-01-13"], fun _ _ => "", fun _ _ => false⟩
    20254 ["2025-01-06", "2025-01-13"] rfl (by decide)
    ["2025-W03", "2025-W02"] ["2025-01"] ["2025-Q1"] []
    (by decide) (by decide) (by decide) (by decide)

/-! ## Claim C6 -/

theorem filterMap_filter_isSome {α β : Type} (f : α → Option β) (l : List α) :
    (l.filter (fun a => (f a).isSome)).filterMap f = l.filterMap f := by
  induction l with
  | nil => rfl
  | cons a rest ih =>
    rw [List.filter_cons]
    cases hf : f a with
    | none =>
      rw [if_neg (by simp), List.filterMap_cons, hf, ih]
    | some b =>
      rw [if_pos (by simp), List.filterMap_cons, List.filterMap_cons, hf, ih]

theorem scanCore_readListIrrelevant (ld ld2 : Except String (List String))
    (rn rn2 : Category → String → String) (ne : Category → String → Bool)
    (now : Int) (notes : List String) :
    scanCore ⟨ld, rn, ne⟩ now notes = scanCore ⟨ld2, rn2, ne⟩ now notes := rfl

/-- Claim C6: during a reminder scan (a) daily note names that do not
parse as dates are silently skipped — removing them from the listing does
not change the result, and the scan is not aborted; (b) with zero
parseable daily dates the scan returns no reminders and no error; (c) a
failure to list the daily notes is fatal and surfaced to the caller as
that error. -/
theorem claim6_error_handling (store : NoteStore) (now : Int) :
    (∀ names, store.listDaily = .ok names →
      checkMissingSummaries store now =
        checkMissingSummaries
          ⟨.ok (names.filter (fun n => (parseDate n).isSome)),
            store.readNote, store.noteExists⟩ now) ∧
    (∀ names, store.listDaily = .ok names → names.filterMap parseDate = [] →
      checkMissingSummaries store now = .ok []) ∧
    (∀ e, store.listDaily = .error e → checkMissingSummaries store now = .error e) := by
  refine ⟨?_, ?_, ?_⟩
  · intro names h
    rw [checkMissing_ok store now names h,
      checkMissing_ok _ now (names.filter (fun n => (parseDate n).isSome)) rfl]
    obtain ⟨ld, rn, ne⟩ := store
    rw [scanCore_readListIrrelevant (.ok (names.filter (fun n => (parseDate n).isSome)))
      ld rn rn ne now (names.filter (fun n => (parseDate n).isSome))]
    unfold scanCore
    rw [filterMap_filter_isSome parseDate names]
    by_cases hn : names = []
    · rw [if_pos hn, if_pos (by rw [hn]; rfl)]
    · rw [if_neg hn]
      by_cases hfe : names.filter (fun n => (parseDate n).isSome) = []
      · rw [if_pos hfe]
        have hd : names.filterMap parseDate = [] := by
          rw [← filterMap_filter_isSome parseDate names, hfe]
          rfl
        rw [if_pos hd]
      · rw [if_neg hfe]
  · intro names h hd
    exact checkMissing_noDates store now names h hd
  · intro e h
    exact checkMissing_error store now e h

/-- Claim C6 witness: the three error-handling behaviours at concrete
stores — a malformed name `"garbage"` is skipped, an all-malformed
listing yields no reminders, a listing failure is surfaced. -/
theorem claim6_error_handling_witness :
    (checkMissingSummaries ⟨.ok ["garbage", "2025-01-06"], fun _ _ => "", fun _ _ => false⟩
        20254 =
      checkMissingSummaries
        ⟨.ok (["garbage", "2025-01-06"].filter (fun n => (parseDate n).isSome)),
          fun _ _ => "", fun _ _ => false⟩ 20254) ∧
    (checkMissingSummaries ⟨.ok ["garbage"], fun _ _ => "", fun _ _ => false⟩ 20254 =
      .ok []) ∧
    (checkMissingSummaries ⟨.error "disk failure", fun _ _ => "", fun _ _ => false⟩ 20254 =
      .error "disk failure") :=
  ⟨(claim6_error_handling ⟨.ok ["garbage", "2025-01-06"], fun _ _ => "", fun _ _ => false⟩
      20254).1 ["garbage", "2025-01-06"] rfl,
   (claim6_error_handling ⟨.ok ["garbage"], fun _ _ => "", fun _ _ => false⟩ 20254).2.1
      ["garbage"] rfl (by decide),
   (claim6_error_handling ⟨.error "disk failure", fun _ _ => "", fun _ _ => false⟩
      20254).2.2 "disk failure" rfl⟩

/-! ## Claims C7 and C8 -/

theorem scanDigits_nil (acc : Nat) : scanDigits [] acc = (acc, []) := rfl

theorem sscanf_of_strict (s : String) (y w : Int)
    (h : parseWeekNameStrict s = some (y, w)) :
    ∃ p, sscanfIntLitInt "-W" s = some p := by
  unfold parseWeekNameStrict at h
  split at h
  case h_2 => exact absurd h (by simp)
  case h_1 y1 y2 y3 y4 h1 hw w1 w2 heq =>
    split at h
    case isFalse => exact absurd h (by simp)
    case isTrue hcond =>
      simp only [Bool.and_eq_true, decide_eq_true_eq] at hcond
      obtain ⟨⟨⟨⟨⟨⟨⟨hy1, hy2⟩, hy3⟩, hy4⟩, hh1⟩, hhw⟩, hw1⟩, hw2⟩ := hcond
      subst hh1
      subst hhw
      have h2 : scanDigits [y1, y2, y3, y4, '-', 'W', w1, w2] 0 =
          (10 * (10 * (10 * (10 * 0 + digitVal y1) + digitVal y2) + digitVal y3) +
            digitVal y4, ['-', 'W', w1, w2]) := by
        rw [scanDigits_cons_digit _ hy1, scanDigits_cons_digit _ hy2,
          scanDigits_cons_digit _ hy3, scanDigits_cons_digit _ hy4,
          scanDigits_stop _ (by rfl)]
      have hscan1 : scanInt s.data =
          some (((10 * (10 * (10 * (10 * 0 + digitVal y1) + digitVal y2) + digitVal y3) +
            digitVal y4 : Nat) : Int), ['-', 'W', w1, w2]) := by
        rw [heq, scanInt_cons y1 _ (digit_not_blank y1 hy1),
          if_neg (digit_ne_dash y1 hy1), if_neg (digit_ne_plus y1 hy1), if_pos hy1, h2]
      have h3 : scanDigits [w1, w2] 0 =
          (10 * (10 * 0 + digitVal w1) + digitVal w2, []) := by
        rw [scanDigits_cons_digit _ hw1, scanDigits_cons_digit _ hw2, scanDigits_nil]
      have hscan2 : scanInt [w1, w2] =
          some (((10 * (10 * 0 + digitVal w1) + digitVal w2 : Nat) : Int), []) := by
        rw [scanInt_cons w1 _ (digit_not_blank w1 hw1),
          if_neg (digit_ne_dash w1 hw1), if_neg (digit_ne_plus w1 hw1), if_pos hw1, h3]
      refine ⟨(((10 * (10 * (10 * (10 * 0 + digitVal y1) + digitVal y2) + digitVal y3) +
          digitVal y4 : Nat) : Int),
        ((10 * (10 * 0 + digitVal w1) + digitVal w2 : Nat) : Int)), ?_⟩
      unfold sscanfIntLitInt
      rw [hscan1]
      simp only [dropLit_dashW, hscan2]

/-- Claim C7, counterexample to the claim as stated: `"2025-W03x"` does
not match the format `YYYY-Www` (trailing character), yet
`mondayOfISOWeek` succeeds on it and returns a date — `Sscanf` ignores
unmatched trailing input — so "fails exactly when the argument does not
match `YYYY-Www`" is false. -/
theorem claim7_counterexample :
    parseWeekNameStrict "2025-W03x" = none ∧
      mondayOfISOWeek "2025-W03x" = some 20101 :=
  ⟨by rfl, by rfl⟩

/-- Claim C7 (amended): `mondayOfISOWeek` never crashes; it returns a
typed error (`none`) exactly when the scan of `"%d-W%d"` fails on the
name, and on every name that does match the strict `YYYY-Www` format it
succeeds and returns a date (the scan is strictly more permissive than
`YYYY-Www`: a sign, extra digits or trailing characters are accepted). -/
theorem claim7_parse :
    (∀ s y w, parseWeekNameStrict s = some (y, w) → ∃ z, mondayOfISOWeek s = some z) ∧
    (∀ s, mondayOfISOWeek s = none ↔ sscanfIntLitInt "-W" s = none) := by
  constructor
  · intro s y w h
    obtain ⟨⟨a, b⟩, hp⟩ := sscanf_of_strict s y w h
    exact ⟨_, mondayOfISOWeek_scanned s a b hp⟩
  · intro s
    unfold mondayOfISOWeek
    cases h : sscanfIntLitInt "-W" s with
    | none => simp
    | some p => simp

/-- Claim C7 witness: the amended statement applied at the well-formed
name `"2025-W03"` and at the malformed name `"nonsense"`. -/
theorem claim7_parse_witness :
    (∃ z, mondayOfISOWeek "2025-W03" = some z) ∧
      (mondayOfISOWeek "nonsense" = none ↔ sscanfIntLitInt "-W" "nonsense" = none) :=
  ⟨claim7_parse.1 "2025-W03" 2025 3 (by rfl), claim7_parse.2 "nonsense"⟩

/-- Claim C8: for every date D, parsing back D's own ISO week identifier
with `mondayOfISOWeek` yields a Monday `m` (ISO weekday 1) such that the
7 consecutive dates `m, m+1, …, m+6` end on a Sunday (ISO weekday 7) and
contain D. -/
theorem claim8_roundtrip (z : Int) :
    ∃ m, mondayOfISOWeek (weekKeyOf z) = some m ∧ isoWeekdayZ m = 1 ∧
      isoWeekdayZ (m + 6) = 7 ∧
      ((List.range 7).map (fun i : Nat => m + (i : Int))).length = 7 ∧
      z ∈ (List.range 7).map (fun i : Nat => m + (i : Int)) := by
  refine ⟨mondayOfZ z, mondayOfISOWeek_weekKey z, isoWeekdayZ_monday z, ?_, by simp, ?_⟩
  · unfold mondayOfZ
    rw [isoWeekdayZ_eq, thursdayOf_eq]
    omega
  · rw [List.mem_map]
    have hb := mondayOfZ_le z
    refine ⟨(z - mondayOfZ z).toNat, ?_, ?_⟩
    · rw [List.mem_range]
      omega
    · omega

/-! ## Lemmas: gather infrastructure -/

theorem filterMap_dailyBlock_offsets (store : NoteStore) (M : Int) (l : List Nat) :
    l.filterMap (fun i : Nat => dailyBlock store (M + (i : Int))) =
      ((l.map (fun i : Nat => M + (i : Int))).filter
        (fun d => store.readNote .daily (dateName d) != "")).map
        (fun d => "── " ++ dateName d ++ " (" ++ weekdayWord d ++ ") ──" ++ "
" ++
          store.readNote .daily (dateName d)) := by
  induction l with
  | nil => rfl
  | cons i rest ih =>
    rw [List.filterMap_cons, List.map_cons, List.filter_cons]
    by_cases hc : store.readNote .daily (dateName (M + (i : Int))) = ""
    · rw [show dailyBlock store (M + (i : Int)) = none from by
        unfold dailyBlock
        rw [if_pos hc]]
      rw [if_neg (by simp [hc]), ih]
    · rw [show dailyBlock store (M + (i : Int)) =
          some ("── " ++ dateName (M + (i : Int)) ++ " (" ++ weekdayWord (M + (i : Int)) ++
            ") ──" ++ "
" ++ store.readNote .daily (dateName (M + (i : Int)))) from by
        unfold dailyBlock
        rw [if_neg hc]]
      rw [if_pos (by simp [hc]), List.map_cons, ih]

theorem gatherDailyForWeek_monday (store : NoteStore) (name : String) (m : Int)
    (h : mondayOfISOWeek name = some m) :
    gatherDailyForWeek store name =
      (if (List.range 7).filterMap (fun i : Nat => dailyBlock store (m + (i : Int))) = []
       then some "(no daily entries for this week)"
       else some (joinSep "\n\n"
         ((List.range 7).filterMap (fun i : Nat => dailyBlock store (m + (i : Int)))))) := by
  unfold gatherDailyForWeek
  rw [h]

theorem mondayOfISOWeek_isMonday (name : String) (z : Int)
    (h : mondayOfISOWeek name = some z) : isoWeekdayZ z = 1 := by
  unfold mondayOfISOWeek at h
  cases hs : sscanfIntLitInt "-W" name with
  | none => rw [hs] at h; exact absurd h (by simp)
  | some p =>
    rw [hs] at h
    have hz := Option.some.inj h
    rw [← hz]
    simp only [isoWeekdayZ_eq]
    omega

theorem foldl_insertNew_mem {α : Type} (key : α → String) :
    ∀ (l : List α) (acc : List String) (P : String),
    P ∈ l.foldl (fun acc a => insertNew acc (key a)) acc ↔
      P ∈ acc ∨ ∃ a ∈ l, key a = P := by
  intro l
  induction l with
  | nil => simp
  | cons a rest ih =>
    intro acc P
    rw [List.foldl_cons, ih, insertNew_mem]
    constructor
    · rintro ((h | h) | h)
      · exact Or.inl h
      · exact Or.inr ⟨a, List.mem_cons_self a rest, h.symm⟩
      · exact Or.inr ⟨h.choose, List.mem_cons_of_mem a h.choose_spec.1, h.choose_spec.2⟩
    · rintro (h | ⟨e, he, hk⟩)
      · exact Or.inl (Or.inl h)
      · rcases List.mem_cons.mp he with h1 | h1
        · subst h1
          exact Or.inl (Or.inr hk.symm)
        · exact Or.inr ⟨e, h1, hk⟩

theorem foldl_insertNew_nodup {α : Type} (key : α → String) :
    ∀ (l : List α) (acc : List String), acc.Nodup →
    (l.foldl (fun acc a => insertNew acc (key a)) acc).Nodup := by
  intro l
  induction l with
  | nil => exact fun acc h => h
  | cons a rest ih =>
    intro acc hacc
    rw [List.foldl_cons]
    exact ih _ (insertNew_nodup acc _ hacc)

theorem mondayOfZ_mono (z1 z2 : Int) (h : z1 ≤ z2) : mondayOfZ z1 ≤ mondayOfZ z2 := by
  unfold mondayOfZ
  rw [thursdayOf_eq, thursdayOf_eq]
  omega

theorem weekKeyOf_of_monday_eq (z1 z2 : Int) (h : mondayOfZ z1 = mondayOfZ z2) :
    weekKeyOf z1 = weekKeyOf z2 := by
  have ht : thursdayOf z1 = thursdayOf z2 := by
    unfold mondayOfZ at h
    omega
  unfold weekKeyOf isoWeekOf
  rw [ht]

/-- Chronological order relation on week names: all parses of the first
name give a strictly earlier Monday than all parses of the second. -/
def weekNameBefore (a b : String) : Prop :=
  ∀ za zb, mondayOfISOWeek a = some za → mondayOfISOWeek b = some zb → za < zb

theorem foldl_weekKeys_chrono :
    ∀ (ds : List Int) (acc : List String),
    List.Pairwise (fun a b : Int => mondayOfZ a ≤ mondayOfZ b) ds →
    List.Pairwise weekNameBefore acc →
    (∀ s ∈ acc, ∃ z, s = weekKeyOf z ∧ ∀ d ∈ ds, mondayOfZ z ≤ mondayOfZ d) →
    List.Pairwise weekNameBefore (ds.foldl (fun acc d => insertNew acc (weekKeyOf d)) acc) := by
  intro ds
  induction ds with
  | nil => exact fun acc _ h _ => h
  | cons d rest ih =>
    intro acc hmono hacc hrep
    rw [List.foldl_cons]
    have hmono2 := List.pairwise_cons.mp hmono
    apply ih _ hmono2.2
    · unfold insertNew
      split
      · exact hacc
      · rw [List.pairwise_append]
        refine ⟨hacc, List.pairwise_singleton _ _, ?_⟩
        intro s hs b hb
        rw [List.mem_singleton] at hb
        subst hb
        rcases hrep s hs with ⟨z, hz, hle⟩
        have hlt : mondayOfZ z < mondayOfZ d := by
          rcases lt_or_eq_of_le (hle d (List.mem_cons_self d rest)) with h1 | h1
          · exact h1
          · exfalso
            have he : s = weekKeyOf d := hz.trans (weekKeyOf_of_monday_eq z d h1)
            exact (by assumption : weekKeyOf d ∉ acc) (he ▸ hs)
        intro za zb hza hzb
        rw [hz] at hza
        rw [mondayOfISOWeek_weekKey z] at hza
        rw [mondayOfISOWeek_weekKey d] at hzb
        rw [← Option.some.inj hza, ← Option.some.inj hzb]
        exact hlt
    · intro s hs
      rw [insertNew_mem] at hs
      rcases hs with hs | hs
      · rcases hrep s hs with ⟨z, hz, hle⟩
        exact ⟨z, hz, fun e he => hle e (List.mem_cons_of_mem d he)⟩
      · subst hs
        exact ⟨d, rfl, fun e he => hmono2.1 e he⟩

/-! ## Claim C3 -/

/-- Claim C3: for every store and well-formed ISO week name, the weekly
reference gather resolves the week's Monday `m` (ISO weekday 1, with
`m+6` the Sunday), reads the 7 daily notes of the consecutive dates
`m..m+6`, emits one headered block (date, weekday word, then content) per
day whose note is non-empty in strictly ascending date order joined by
blank lines, excludes empty days entirely, and returns the literal
placeholder exactly when no daily note of the week has content. -/
theorem claim3_weekly_gather (store : NoteStore) (name : String) (y w : Int)
    (hp : parseWeekNameStrict name = some (y, w)) :
    ∃ m, mondayOfISOWeek name = some m ∧ isoWeekdayZ m = 1 ∧ isoWeekdayZ (m + 6) = 7 ∧
      gatherDailyForWeek store name = some
        (if (((List.range 7).map (fun i : Nat => m + (i : Int))).filter
              (fun d => store.readNote .daily (dateName d) != "")) = [] then
          "(no daily entries for this week)"
        else joinSep "\n\n" ((((List.range 7).map (fun i : Nat => m + (i : Int))).filter
              (fun d => store.readNote .daily (dateName d) != "")).map
            (fun d => "── " ++ dateName d ++ " (" ++ weekdayWord d ++ ") ──" ++ "\n" ++
              store.readNote .daily (dateName d)))) ∧
      List.Pairwise (fun a b : Int => a < b)
        (((List.range 7).map (fun i : Nat => m + (i : Int))).filter
          (fun d => store.readNote .daily (dateName d) != "")) := by
  obtain ⟨⟨a, b⟩, hs⟩ := sscanf_of_strict name y w hp
  have hm := mondayOfISOWeek_scanned name a b hs
  refine ⟨_, hm, mondayOfISOWeek_isMonday name _ hm, ?_, ?_, ?_⟩
  · have h1 := mondayOfISOWeek_isMonday name _ hm
    rw [isoWeekdayZ_eq] at h1 ⊢
    omega
  · have hcore := filterMap_dailyBlock_offsets store
      (jan1 a + 3 - (isoWeekdayZ (jan1 a + 3) - 1) + (b - 1) * 7) (List.range 7)
    rw [gatherDailyForWeek_monday store name _ hm, hcore]
    by_cases hfe : (((List.range 7).map (fun i : Nat =>
        jan1 a + 3 - (isoWeekdayZ (jan1 a + 3) - 1) + (b - 1) * 7 + (i : Int))).filter
      (fun d => store.readNote .daily (dateName d) != "")) = []
    · rw [hfe]
      simp
    · rw [if_neg (by
        intro hc
        exact hfe (List.map_eq_nil_iff.mp hc)), if_neg hfe]
  · apply List.Pairwise.sublist (List.filter_sublist _)
    rw [List.pairwise_map]
    apply List.Pairwise.imp ?_ (List.pairwise_lt_range 7)
    intro i j hij
    omega

/-- Claim C3 witness: the weekly gather for `2025-W03` over a store whose
daily notes are all `"x"`. -/
theorem claim3_weekly_gather_witness :
    ∃ m, mondayOfISOWeek "2025-W03" = some m ∧ isoWeekdayZ m = 1 ∧ isoWeekdayZ (m + 6) = 7 ∧
      gatherDailyForWeek ⟨.ok [], fun _ _ => "x", fun _ _ => false⟩ "2025-W03" = some
        (if (((List.range 7).map (fun i : Nat => m + (i : Int))).filter
              (fun d => (fun _ _ => "x") Category.daily (dateName d) != "")) = [] then
          "(no daily entries for this week)"
        else joinSep "\n\n" ((((List.range 7).map (fun i : Nat => m + (i : Int))).filter
              (fun d => (fun _ _ => "x") Category.daily (dateName d) != "")).map
            (fun d => "── " ++ dateName d ++ " (" ++ weekdayWord d ++ ") ──" ++ "\n" ++
              (fun _ _ => "x") Category.daily (dateName d)))) ∧
      List.Pairwise (fun a b : Int => a < b)
        (((List.range 7).map (fun i : Nat => m + (i : Int))).filter
          (fun d => (fun _ _ => "x") Category.daily (dateName d) != "")) :=
  claim3_weekly_gather ⟨.ok [], fun _ _ => "x", fun _ _ => false⟩ "2025-W03" 2025 3 (by rfl)

/-! ## Claim C4 -/

theorem gatherMonthlyForQuarter_scanned (store : NoteStore) (name : String) (year q : Int)
    (h : sscanfIntLitInt "-Q" name = some (year, q)) :
    gatherMonthlyForQuarter store name = some (joinSep "\n\n"
      ((List.range 3).map (fun i : Nat => monthlyBlock store year ((q - 1) * 3 + 1 + (i : Int))))) := by
  unfold gatherMonthlyForQuarter
  rw [h]

theorem gatherQuarterlyForYear_scanned (store : NoteStore) (name : String) (year : Int)
    (h : sscanfInt name = some year) :
    gatherQuarterlyForYear store name = some (joinSep "\n\n"
      ((List.range 4).map (fun i : Nat => quarterlyBlock store year ((i : Int) + 1)))) := by
  unfold gatherQuarterlyForYear
  rw [h]

/-- Claim C4: for a quarter name `YYYY-Qq` (q in 1..4) the quarterly
gather emits exactly 3 blocks, one per month of the quarter starting at
month `(q-1)*3+1`, each a header plus content-or-placeholder, joined by
blank lines with no special case when all are empty; for a year name the
yearly gather likewise always emits exactly the 4 quarter blocks Q1..Q4. -/
theorem claim4_quarter_year_gather (store : NoteStore) :
    (∀ name year q, sscanfIntLitInt "-Q" name = some (year, q) → 1 ≤ q → q ≤ 4 →
      gatherMonthlyForQuarter store name = some (joinSep "\n\n"
        [monthlyBlock store year ((q - 1) * 3 + 1),
         monthlyBlock store year ((q - 1) * 3 + 2),
         monthlyBlock store year ((q - 1) * 3 + 3)]) ∧
      ([monthlyBlock store year ((q - 1) * 3 + 1),
        monthlyBlock store year ((q - 1) * 3 + 2),
        monthlyBlock store year ((q - 1) * 3 + 3)] : List String).length = 3) ∧
    (∀ name year, sscanfInt name = some year →
      gatherQuarterlyForYear store name = some (joinSep "\n\n"
        [quarterlyBlock store year 1, quarterlyBlock store year 2,
         quarterlyBlock store year 3, quarterlyBlock store year 4]) ∧
      ([quarterlyBlock store year 1, quarterlyBlock store year 2,
        quarterlyBlock store year 3, quarterlyBlock store year 4] : List String).length = 4) := by
  constructor
  · intro name year q hq _ _
    refine ⟨?_, rfl⟩
    rw [gatherMonthlyForQuarter_scanned store name year q hq]
    have h3 : List.range 3 = [0, 1, 2] := rfl
    rw [h3, List.map_cons, List.map_cons, List.map_cons, List.map_nil]
    rw [show (q - 1) * 3 + 1 + ((0 : Nat) : Int) = (q - 1) * 3 + 1 from by omega,
      show (q - 1) * 3 + 1 + ((1 : Nat) : Int) = (q - 1) * 3 + 2 from by omega,
      show (q - 1) * 3 + 1 + ((2 : Nat) : Int) = (q - 1) * 3 + 3 from by omega]
  · intro name year hy
    refine ⟨?_, rfl⟩
    rw [gatherQuarterlyForYear_scanned store name year hy]
    have h4 : List.range 4 = [0, 1, 2, 3] := rfl
    rw [h4, List.map_cons, List.map_cons, List.map_cons, List.map_cons, List.map_nil]
    rw [show ((0 : Nat) : Int) + 1 = 1 from by omega,
      show ((1 : Nat) : Int) + 1 = 2 from by omega,
      show ((2 : Nat) : Int) + 1 = 3 from by omega,
      show ((3 : Nat) : Int) + 1 = 4 from by omega]

/-- Claim C4 witness: the quarterly gather for `2025-Q3` and the yearly
gather for `2025` over an empty store. -/
theorem claim4_quarter_year_gather_witness :
    (gatherMonthlyForQuarter ⟨.ok [], fun _ _ => "", fun _ _ => false⟩ "2025-Q3" =
      some (joinSep "\n\n"
        [monthlyBlock ⟨.ok [], fun _ _ => "", fun _ _ => false⟩ 2025 ((3 - 1) * 3 + 1),
         monthlyBlock ⟨.ok [], fun _ _ => "", fun _ _ => false⟩ 2025 ((3 - 1) * 3 + 2),
         monthlyBlock ⟨.ok [], fun _ _ => "", fun _ _ => false⟩ 2025 ((3 - 1) * 3 + 3)])) ∧
    (gatherQuarterlyForYear ⟨.ok [], fun _ _ => "", fun _ _ => false⟩ "2025" =
      some (joinSep "\n\n"
        [quarterlyBlock ⟨.ok [], fun _ _ => "", fun _ _ => false⟩ 2025 1,
         quarterlyBlock ⟨.ok [], fun _ _ => "", fun _ _ => false⟩ 2025 2,
         quarterlyBlock ⟨.ok [], fun _ _ => "", fun _ _ => false⟩ 2025 3,
         quarterlyBlock ⟨.ok [], fun _ _ => "", fun _ _ => false⟩ 2025 4])) :=
  ⟨((claim4_quarter_year_gather ⟨.ok [], fun _ _ => "", fun _ _ => false⟩).1
      "2025-Q3" 2025 3 (by rfl) (by decide) (by decide)).1,
   ((claim4_quarter_year_gather ⟨.ok [], fun _ _ => "", fun _ _ => false⟩).2
      "2025" 2025 (by rfl)).1⟩

/-! ## Claims C2 and C10 -/

theorem weeksOverlappingMonth_eq_fold (y m : Int) :
    weeksOverlappingMonth y m =
      ((List.range (daysInMonth y m).toNat).map
        (fun i : Nat => dayNumber y m ((i : Int) + 1))).foldl
        (fun acc d => insertNew acc (weekKeyOf d)) [] := by
  unfold weeksOverlappingMonth
  rw [List.foldl_map]

theorem gatherWeeklyForMonth_parsed (store : NoteStore) (name : String) (y m : Int)
    (h : parseMonthName name = some (y, m)) :
    gatherWeeklyForMonth store name =
      (if (weeksOverlappingMonth y m).map (weeklyBlock store) = [] then
        some "(no weekly summaries for this month)"
      else some (joinSep "\n\n" ((weeksOverlappingMonth y m).map (weeklyBlock store)))) := by
  unfold gatherWeeklyForMonth
  rw [h]

theorem monthDays_monday_mono (y m : Int) :
    List.Pairwise (fun a b : Int => mondayOfZ a ≤ mondayOfZ b)
      ((List.range (daysInMonth y m).toNat).map
        (fun i : Nat => dayNumber y m ((i : Int) + 1))) := by
  rw [List.pairwise_map]
  apply List.Pairwise.imp ?_ (List.pairwise_lt_range _)
  intro i j hij
  apply mondayOfZ_mono
  unfold dayNumber
  omega

/-- Claim C2: for every store and month name `YYYY-MM`, the monthly
reference gather emits one headered block per overlapping ISO week
(content if non-empty, `"(no summary)"` otherwise — every week appears
regardless of emptiness, the count of blocks equals the count of weeks),
joined by blank lines; the week list has no duplicates and is
chronological (first-occurrence order: parsed Mondays strictly
increase); with no overlapping weeks the result would be the literal
placeholder. -/
theorem claim2_monthly_gather (store : NoteStore) (name : String) (y m : Int)
    (hp : parseMonthName name = some (y, m)) :
    gatherWeeklyForMonth store name = some
      (if weeksOverlappingMonth y m = [] then "(no weekly summaries for this month)"
       else joinSep "\n\n" ((weeksOverlappingMonth y m).map (weeklyBlock store))) ∧
    ((weeksOverlappingMonth y m).map (weeklyBlock store)).length =
      (weeksOverlappingMonth y m).length ∧
    (weeksOverlappingMonth y m).Nodup ∧
    List.Pairwise weekNameBefore (weeksOverlappingMonth y m) := by
  refine ⟨?_, List.length_map _ _, ?_, ?_⟩
  · rw [gatherWeeklyForMonth_parsed store name y m hp]
    by_cases hw : weeksOverlappingMonth y m = []
    · rw [hw]
      simp
    · rw [if_neg (fun hc => hw (List.map_eq_nil_iff.mp hc)), if_neg hw]
  · rw [weeksOverlappingMonth_eq_fold]
    exact foldl_insertNew_nodup weekKeyOf _ [] List.nodup_nil
  · rw [weeksOverlappingMonth_eq_fold]
    exact foldl_weekKeys_chrono _ [] (monthDays_monday_mono y m) List.Pairwise.nil
      (fun s hs => absurd hs (List.not_mem_nil s))

/-- Claim C2 witness: the monthly gather for `2025-01` over an empty
store. -/
theorem claim2_monthly_gather_witness :
    gatherWeeklyForMonth ⟨.ok [], fun _ _ => "", fun _ _ => false⟩ "2025-01" = some
      (if weeksOverlappingMonth 2025 1 = [] then "(no weekly summaries for this month)"
       else joinSep "\n\n" ((weeksOverlappingMonth 2025 1).map
         (weeklyBlock ⟨.ok [], fun _ _ => "", fun _ _ => false⟩))) ∧
    ((weeksOverlappingMonth 2025 1).map
      (weeklyBlock ⟨.ok [], fun _ _ => "", fun _ _ => false⟩)).length =
      (weeksOverlappingMonth 2025 1).length ∧
    (weeksOverlappingMonth 2025 1).Nodup ∧
    List.Pairwise weekNameBefore (weeksOverlappingMonth 2025 1) :=
  claim2_monthly_gather ⟨.ok [], fun _ _ => "", fun _ _ => false⟩ "2025-01" 2025 1 (by rfl)

/-- Claim C10: for every month name that parses, the month has at least
28 days, the computed overlapping-week list is non-empty, and the
monthly gather therefore never takes the "(no weekly summaries for this
month)" branch on a valid month: it returns the join of at least one
week block. -/
theorem claim10_no_empty_month (store : NoteStore) (name : String) (y m : Int)
    (hp : parseMonthName name = some (y, m)) :
    weeksOverlappingMonth y m ≠ [] ∧ 28 ≤ daysInMonth y m ∧
    gatherWeeklyForMonth store name =
      some (joinSep "\n\n" ((weeksOverlappingMonth y m).map (weeklyBlock store))) ∧
    1 ≤ ((weeksOverlappingMonth y m).map (weeklyBlock store)).length := by
  have hdm : 28 ≤ daysInMonth y m := by
    unfold daysInMonth
    split
    · split <;> omega
    · split <;> omega
  have hne : weeksOverlappingMonth y m ≠ [] := by
    intro he
    have hmem : weekKeyOf (dayNumber y m ((0 : Nat) + 1)) ∈ weeksOverlappingMonth y m := by
      rw [weeksOverlappingMonth_eq_fold]
      apply (foldl_insertNew_mem weekKeyOf _ _ _).mpr
      refine Or.inr ⟨dayNumber y m ((0 : Nat) + 1), ?_, rfl⟩
      apply List.mem_map_of_mem
      rw [List.mem_range]
      omega
    rw [he] at hmem
    exact absurd hmem (List.not_mem_nil _)
  refine ⟨hne, hdm, ?_, ?_⟩
  · rw [gatherWeeklyForMonth_parsed store name y m hp,
      if_neg (fun hc => hne (List.map_eq_nil_iff.mp hc))]
  · rw [List.length_map]
    exact List.length_pos.mpr hne

/-- Claim C10 witness: the non-emptiness and non-placeholder branch for
the concrete month `2025-01`. -/
theorem claim10_no_empty_month_witness :
    weeksOverlappingMonth 2025 1 ≠ [] ∧ 28 ≤ daysInMonth 2025 1 ∧
    gatherWeeklyForMonth ⟨.ok [], fun _ _ => "", fun _ _ => false⟩ "2025-01" =
      some (joinSep "\n\n" ((weeksOverlappingMonth 2025 1).map
        (weeklyBlock ⟨.ok [], fun _ _ => "", fun _ _ => false⟩))) ∧
    1 ≤ ((weeksOverlappingMonth 2025 1).map
      (weeklyBlock ⟨.ok [], fun _ _ => "", fun _ _ => false⟩)).length :=
  claim10_no_empty_month ⟨.ok [], fun _ _ => "", fun _ _ => false⟩ "2025-01" 2025 1 (by rfl)

end Teatime
